import Mathlib

/-!
Verification of the simple-trie repository: an in-memory, path-compressed,
base-16 radix trie (simpletrie/trie.py, simpletrie/utils.py) plus the
hash-addressed draft variant (trie/__init__.py).

Bytes and nibbles are modelled as lists of natural numbers; `Option` encodes
Python `None`.  Functions that can raise return `Option` results, with `none`
standing for a raised exception.
-/

/-- A byte string: list of byte values. -/
abbrev Bytes := List Nat

/-- A nibble sequence: list of 4-bit values. -/
abbrev Nibbles := List Nat

/-- A stored value: Python `Optional[bytes]` (absence encoded as `none`). -/
abbrev Val := Option Bytes

/-- Translation of `utils.prefix_length`: length of the longest common
prefix of two sequences, computed by pairwise comparison. -/
def prefixLength : Nibbles → Nibbles → Nat
  | x :: xs, y :: ys => if x = y then prefixLength xs ys + 1 else 0
  | _, _ => 0

/-- Translation of `utils.bytes_to_nibbles`: each byte yields its high
nibble then its low nibble. -/
def bytesToNibbles (xs : Bytes) : Nibbles :=
  xs.flatMap (fun x => [x / 16, x % 16])

/-- Loop of `utils.nibbles_to_bytes`.  The Boolean records the Python `odd`
flag (`even` is always its complement); the accumulator is `b`.  `none`
models the `ValueError` raised on an odd number of nibbles, and also the
`OverflowError` from `to_bytes` when an accumulated byte exceeds 255. -/
def nibblesToBytesLoop : Bool → Nat → List Nat → Option (List Nat)
  | odd, _, [] => if odd then some [] else none
  | odd, b, x :: xs =>
    let b2 := if odd then b + 16 * x else b + x
    if odd then
      nibblesToBytesLoop false b2 xs
    else
      if b2 < 256 then (nibblesToBytesLoop true 0 xs).map (fun rest => b2 :: rest)
      else none

/-- Translation of `utils.nibbles_to_bytes`. -/
def nibblesToBytes (xs : List Nat) : Option (List Nat) :=
  nibblesToBytesLoop true 0 xs

/-- The node algebra of `simpletrie/trie.py`: `Leaf(key, value)`,
`Extension(key, node)` and `Branch(nodes, value)` with 16 optional slots.
An `Extension` always carries its child here; the only place the Python code
builds an `Extension` with child `None` is inside `Extension.delete`, where
the node is discarded immediately (see `Node.delete`). -/
inductive Node where
  | leaf (key : Nibbles) (value : Val)
  | ext (key : Nibbles) (node : Node)
  | branch (nodes : List (Option Node)) (value : Val)
deriving Repr

/-- The slot list of `Branch.__init__` when `nodes is None`: 16 empty slots. -/
def empty16 : List (Option Node) := List.replicate 16 none

/-- Translation of `Extension.tail`: drop the first `i` key nibbles and
return the child instead when the shortened extension would be shallow. -/
def extTail (i : Nat) (key : Nibbles) (child : Node) : Node :=
  if key.drop i = [] then child else Node.ext (key.drop i) child

/-- Translation of the per-class `is_empty` properties.  An `Extension` in
this embedding always has a child, so `Extension.is_empty` is `false`. -/
def Node.isEmpty : Node → Bool
  | .leaf _ v => v.isNone
  | .ext _ _ => false
  | .branch ns v => ns.all Option.isNone && v.isNone

mutual
/-- Translation of `__len__` on nodes: number of stored values. -/
def Node.len : Node → Nat
  | .leaf _ v => if v.isSome then 1 else 0
  | .ext _ n => Node.len n
  | .branch ns v => (if v.isSome then 1 else 0) + slotsLen ns

/-- Sum of `__len__` over a branch's slots (absent slots count 0). -/
def slotsLen : List (Option Node) → Nat
  | [] => 0
  | none :: rest => slotsLen rest
  | some m :: rest => Node.len m + slotsLen rest
end

mutual
/-- Translation of the per-class `get` methods.  Result `none` models a
raised `KeyError` (or `IndexError` for an out-of-range nibble); `some v`
is the returned value.  The branch dispatch `self.nodes[head]` is the
structurally recursive list indexing `slotsGet`. -/
def Node.get : Node → Nibbles → Option Val
  | .leaf k v, key => if k = key then some v else none
  | .ext k n, key =>
    if k = key.take k.length then Node.get n (key.drop k.length) else none
  | .branch _ v, [] =>
    match v with
    | none => none
    | some b => some (some b)
  | .branch ns _, h :: t => slotsGet ns h t

/-- Indexing `nodes[head]` followed by `get` on the child: `none` for an
out-of-range index or an absent child. -/
def slotsGet : List (Option Node) → Nat → Nibbles → Option Val
  | [], _, _ => none
  | o :: _, 0, t =>
    match o with
    | some m => Node.get m t
    | none => none
  | _ :: rest, i + 1, t => slotsGet rest i t
end

mutual
/-- Translation of the per-class `delete` methods.  The outer `Option`
models exceptions (`none` = raised `KeyError`, or `IndexError` for an
out-of-range nibble); the inner `Option Node` is the returned subtree,
`none` when the subtree became empty and was pruned.  `Extension.delete`
builds an `Extension` around the child's delete result and collapses it
when that result is `None`; here the collapse test is done by matching on
the child's result before the node is built.  `slotsDelete` is the
indexing `self.nodes[head]` followed by the child's `delete`. -/
def Node.delete : Node → Nibbles → Option (Option Node)
  | .leaf k _, key => if k = key then some none else none
  | .ext k n, key =>
    if k = key.take k.length then
      match Node.delete n (key.drop k.length) with
      | none => none
      | some none => some none
      | some (some c) => some (some (Node.ext k c))
    else none
  | .branch ns v, [] =>
    match v with
    | none => none
    | some _ =>
      if (Node.branch ns none).isEmpty then some none
      else some (some (Node.branch ns none))
  | .branch ns v, h :: t =>
    match slotsDelete ns h t with
    | none => none
    | some r =>
      if (Node.branch (ns.set h r) v).isEmpty then some none
      else some (some (Node.branch (ns.set h r) v))

/-- Indexing `nodes[head]` followed by `delete` on the child: `none` for
an out-of-range index (`IndexError`) or an absent child (`KeyError`). -/
def slotsDelete : List (Option Node) → Nat → Nibbles → Option (Option Node)
  | [], _, _ => none
  | o :: _, 0, t =>
    match o with
    | some m => Node.delete m t
    | none => none
  | _ :: rest, i + 1, t => slotsDelete rest i t
end

/-- Fuel-indexed translation of the per-class `insert` methods, dispatching
on the shape of the node being inserted as Python's dynamic dispatch and the
annotated signatures do (`Leaf.insert(leaf: Leaf)`,
`Extension.insert(leaf: Leaf)`, `Branch.insert(node: Union[Leaf, Extension])`).
`none` models a raised exception — `ValueError` for a shallow extension
inserted into a branch, `IndexError` for an out-of-range nibble, a type
error for an argument outside the annotated signature — or fuel exhaustion;
the Python recursion has no syntactic termination measure, so it is
modelled with fuel and every theorem quantifies over the fuel. -/
def insertF : Nat → Node → Node → Option Node
  | 0, _, _ => none
  | f + 1, Node.leaf k v, Node.leaf k2 v2 =>
    -- Leaf.insert
    if k = k2 then some (Node.leaf k2 v2)
    else if k = [] then insertF f (Node.branch empty16 v) (Node.leaf k2 v2)
    else if k2 = [] then insertF f (Node.branch empty16 v2) (Node.leaf k v)
    else
      let l := prefixLength k k2
      if 0 < l then
        (insertF f (Node.leaf (k.drop l) v) (Node.leaf (k2.drop l) v2)).map
          (fun m => Node.ext (k.take l) m)
      else
        (insertF f (Node.branch empty16 none) (Node.leaf k v)).bind
          (fun b => insertF f b (Node.leaf k2 v2))
  | _ + 1, Node.leaf _ _, _ => none
  | f + 1, Node.ext k n, Node.leaf k2 v2 =>
    -- Extension.insert
    if k = [] then insertF f n (Node.leaf k2 v2)
    else if k2 = [] then insertF f (Node.branch empty16 v2) (Node.ext k n)
    else
      let l := prefixLength k k2
      if 0 < l then
        (insertF f (extTail l k n) (Node.leaf (k2.drop l) v2)).map
          (fun m => Node.ext (k.take l) m)
      else
        (insertF f (Node.branch empty16 none) (Node.ext k n)).bind
          (fun b => insertF f b (Node.leaf k2 v2))
  | _ + 1, Node.ext _ _, _ => none
  | f + 1, Node.branch ns v, Node.leaf k2 v2 =>
    -- Branch.insert with a Leaf argument
    match k2 with
    | [] => some (Node.branch ns v2)
    | h :: t =>
      match ns[h]? with
      | none => none
      | some none => some (Node.branch (ns.set h (some (Node.leaf t v2))) v)
      | some (some m) =>
        (insertF f m (Node.leaf t v2)).map
          (fun r => Node.branch (ns.set h (some r)) v)
  | _ + 1, Node.branch ns v, Node.ext k2 n2 =>
    -- Branch.insert with an Extension argument: unconditional slot overwrite
    match k2 with
    | [] => none
    | h :: t =>
      if h < ns.length then
        some (Node.branch (ns.set h (some (extTail 1 (h :: t) n2))) v)
      else none
  | _ + 1, Node.branch _ _, Node.branch _ _ => none

/-- Translation of `Node.__radd__` combined with `Node.__add__`: absence is
a left identity for insertion (`None + node == node`). -/
def nodeAdd (f : Nat) : Option Node → Node → Option Node
  | none, other => some other
  | some n, other => insertF f n other

/-- Translation of `SimpleTrie.__setitem__`: build a leaf over the key's
nibbles and add it to the root.  The result is the new root on success. -/
def trieSet (f : Nat) (t : Option Node) (key value : Bytes) : Option Node :=
  nodeAdd f t (Node.leaf (bytesToNibbles key) (some value))

/-- Translation of `SimpleTrie.__getitem__`: `none` models `KeyError`. -/
def trieGet (t : Option Node) (key : Bytes) : Option Val :=
  match t with
  | none => none
  | some n => n.get (bytesToNibbles key)

/-- Translation of `SimpleTrie.__delitem__`: `none` models `KeyError`; on
success the result is the new root, possibly absent. -/
def trieDel (t : Option Node) (key : Bytes) : Option (Option Node) :=
  match t with
  | none => none
  | some n => n.delete (bytesToNibbles key)

/-- Translation of `SimpleTrie.__len__`. -/
def trieLen : Option Node → Nat
  | none => 0
  | some n => n.len

/-- Apply `trieSet` for each key/value pair in order; `none` when a set
fails (exhausted fuel). -/
def setAll (f : Nat) : Option Node → List (Bytes × Bytes) → Option (Option Node)
  | t, [] => some t
  | t, p :: rest =>
    match trieSet f t p.1 p.2 with
    | none => none
    | some n => setAll f (some n) rest

/-- Apply `trieDel` for each key in order; `none` when a delete fails. -/
def delAll : Option Node → List Bytes → Option (Option Node)
  | t, [] => some t
  | t, k :: rest =>
    match trieDel t k with
    | none => none
    | some t2 => delAll t2 rest

mutual
/-- Every `Leaf` in the tree holds a present value.  This is the state of
every tree reachable through `SimpleTrie.__setitem__`, which only ever
builds leaves with an actual `bytes` value. -/
def valuesPresent : Node → Bool
  | .leaf _ v => v.isSome
  | .ext _ n => valuesPresent n
  | .branch ns _ => slotsVP ns

/-- `valuesPresent` over a branch's slots. -/
def slotsVP : List (Option Node) → Bool
  | [] => true
  | none :: rest => slotsVP rest
  | some m :: rest => valuesPresent m && slotsVP rest
end

/-- The shape predicate of claim C3 on a single node: not an `Extension`. -/
def Node.isLeafOrBranch : Node → Bool
  | .ext _ _ => false
  | _ => true

/-- Shape test used in the strengthened extension invariant. -/
def Node.isBranch : Node → Bool
  | .branch _ _ => true
  | _ => false

mutual
/-- Claim C3's invariant: every `Extension` in the tree has a non-empty key
and a `Leaf` or `Branch` child (never another `Extension`; in this embedding
an extension's child can never be absent, matching the claim's final
conjunct by construction). -/
def extOK : Node → Bool
  | .leaf _ _ => true
  | .ext k n => !(k.isEmpty) && n.isLeafOrBranch && extOK n
  | .branch ns _ => extOKSlots ns

/-- `extOK` over a branch's slots. -/
def extOKSlots : List (Option Node) → Bool
  | [] => true
  | none :: rest => extOKSlots rest
  | some m :: rest => extOK m && extOKSlots rest
end

mutual
/-- Strengthened extension invariant, closed under `insert`: every
`Extension` has a non-empty key and a `Branch` child. -/
def extOKS : Node → Bool
  | .leaf _ _ => true
  | .ext k n => !(k.isEmpty) && n.isBranch && extOKS n
  | .branch ns _ => extOKSSlots ns

/-- `extOKS` over a branch's slots. -/
def extOKSSlots : List (Option Node) → Bool
  | [] => true
  | none :: rest => extOKSSlots rest
  | some m :: rest => extOKS m && extOKSSlots rest
end

/-- Trees produced by a sequence of `insert` operations with leaves,
starting from any leaf or from the absent node (claim C3's class of
trees).  `step` covers any successful insert at any fuel. -/
inductive Built : Option Node → Prop where
  | nil : Built none
  | start (k : Nibbles) (v : Val) : Built (some (Node.leaf k v))
  | step (t : Node) (f : Nat) (k : Nibbles) (v : Val) (r : Node) :
      Built (some t) → insertF f t (Node.leaf k v) = some r → Built (some r)

/-! ### The hash-addressed draft variant (`trie/__init__.py`)

Node hashes are byte strings; the store is an association list from hash to
node.  The RLP encoder and keccak hash are external collaborators, modelled
by an arbitrary function from a node's canonical field tuple to a hash. -/

/-- A hash value (a byte string). -/
abbrev HashV := List Nat

/-- The `Branch` of `trie/__init__.py`: 16 child hashes plus a value. -/
structure BranchH where
  hashes : List HashV
  value : Option Bytes
deriving Repr

/-- Translation of the hash-variant `Branch.__init__(value=b'')`: the only
constructor signature the class defines takes a single `value` argument and
sets 16 empty hashes. -/
def BranchH.init (value : Option Bytes) : BranchH :=
  ⟨List.replicate 16 [], value⟩

/-- Translation of the hash-variant `Branch.copy`: its body calls
`type(self)(self.hashes[:], self.value)`, passing two positional arguments
to an `__init__` that accepts only `value` — every call raises `TypeError`,
modelled as `none`. -/
def BranchH.copy (_ : BranchH) : Option BranchH := none

/-- Store lookup: Python `self._db[hsh]` with `KeyError` as `none`. -/
def dbFind (db : List (HashV × BranchH)) (h : HashV) : Option BranchH :=
  (db.find? (fun p => p.1 = h)).map (fun p => p.2)

/-- Translation of `Trie._set` from `trie/__init__.py`.  `hashFn` is the
composition of the external encoder and hash collaborators.  On a store
hit the code copies the node via `Branch.copy`, which always raises
`TypeError`.  On a store miss it builds `Branch(None)`; then, if nibbles
remain, line `self._set(node[key[0]], ...)` reads the local `node`, which
is unbound on this path (`NameError`); if the key is exhausted, the store
write `self.db[hsh_] = node_` reads the undefined attribute `db` (the
constructor only defines `_db`), an `AttributeError`.  Every path raises,
modelled as `none`. -/
def trieSetH (hashFn : BranchH → HashV) (db : List (HashV × BranchH))
    (hsh : HashV) (key : Nibbles) (value : Bytes) : Option (List (HashV × BranchH) × HashV) :=
  match dbFind db hsh with
  | some node =>
    match node.copy with
    | none => none
    | some _ => none
  | none =>
    match key with
    | [] => none
    | _ :: _ => none

/-- Length of an optional node (absent node: 0). -/
def optLen : Option Node → Nat
  | none => 0
  | some n => n.len

/-- `get` on an optional node: a lookup on the absent node raises. -/
def optGet : Option Node → Nibbles → Option Val
  | none, _ => none
  | some n, k => n.get k

/-- `valuesPresent` on an optional node. -/
def vpO : Option Node → Bool
  | none => true
  | some n => valuesPresent n

/-- `extOKS` on an optional node. -/
def extOKSO : Option Node → Bool
  | none => true
  | some n => extOKS n

/-- Abstraction invariant tying a trie root to the list of nibble keys it
maps: values are all present, the stored-value count equals the number of
keys, the key list has no duplicates, and exactly the listed keys are
retrievable. -/
def TrieInv (t : Option Node) (S : List Nibbles) : Prop :=
  vpO t = true ∧ optLen t = S.length ∧ S.Nodup ∧
  (∀ κ, (optGet t κ).isSome = true ↔ κ ∈ S)

mutual
/-- Structural size measure used for strong induction over trees. -/
def nodeSize : Node → Nat
  | .leaf _ _ => 1
  | .ext _ n => nodeSize n + 1
  | .branch ns _ => slotsSize ns + 1

/-- Structural size of a slot list. -/
def slotsSize : List (Option Node) → Nat
  | [] => 0
  | none :: rest => slotsSize rest + 1
  | some m :: rest => nodeSize m + slotsSize rest + 1
end

mutual
/-- Total length of all keys stored in a tree (an insertion measure). -/
def nodeKeys : Node → Nat
  | .leaf k _ => k.length
  | .ext k n => k.length + nodeKeys n
  | .branch ns _ => slotsKeys ns

/-- `nodeKeys` summed over a branch's slots. -/
def slotsKeys : List (Option Node) → Nat
  | [] => 0
  | none :: rest => slotsKeys rest
  | some m :: rest => nodeKeys m + slotsKeys rest
end

/-- `nodeKeys` of an optional node. -/
def optKeys : Option Node → Nat
  | none => 0
  | some n => nodeKeys n

mutual
/-- Structurally valid trees: every key nibble is in range and every
branch owns exactly 16 slots — the shapes the facade can construct. -/
def validNode : Node → Bool
  | .leaf k _ => k.all (fun x => x < 16)
  | .ext k n => k.all (fun x => x < 16) && validNode n
  | .branch ns _ => decide (ns.length = 16) && validSlots ns

/-- `validNode` over a branch's slots. -/
def validSlots : List (Option Node) → Bool
  | [] => true
  | none :: rest => validSlots rest
  | some m :: rest => validNode m && validSlots rest
end

/-- `validNode` of an optional node. -/
def validO : Option Node → Bool
  | none => true
  | some n => validNode n

/-- Secondary insertion measure: shallow-extension chains shrink it, and a
leaf outranks any branch, so it breaks the ties `nodeKeys` leaves. -/
def shallowRank : Node → Nat
  | .branch _ _ => 0
  | .leaf _ _ => 1
  | .ext k n => if k = [] then 3 + shallowRank n else 2

/-- `slotsGet` agrees with optional indexing followed by `get`. -/
theorem slotsGet_eq :
    ∀ (ns : List (Option Node)) (h : Nat) (t : Nibbles),
      slotsGet ns h t =
        match ns[h]? with
        | some (some m) => Node.get m t
        | _ => none := by
  intro ns
  induction ns with
  | nil => intro h t; cases h <;> rfl
  | cons o rest ih =>
    intro h t
    cases h with
    | zero => cases o <;> simp [slotsGet]
    | succ i => simp [slotsGet, ih i t]

/-- `slotsDelete` agrees with optional indexing followed by `delete`. -/
theorem slotsDelete_eq :
    ∀ (ns : List (Option Node)) (h : Nat) (t : Nibbles),
      slotsDelete ns h t =
        match ns[h]? with
        | some (some m) => Node.delete m t
        | _ => none := by
  intro ns
  induction ns with
  | nil => intro h t; cases h <;> rfl
  | cons o rest ih =>
    intro h t
    cases h with
    | zero => cases o <;> simp [slotsDelete]
    | succ i => simp [slotsDelete, ih i t]

/-! ### Slot-list support lemmas -/

/-- A node stored in a slot is smaller than the whole slot list. -/
theorem nodeSize_slot :
    ∀ (ns : List (Option Node)) (h : Nat) (m : Node),
      ns[h]? = some (some m) → nodeSize m < slotsSize ns := by
  intro ns
  induction ns with
  | nil => intro h m hm; simp at hm
  | cons o rest ih =>
    intro h m hm
    cases h with
    | zero =>
      simp only [List.getElem?_cons_zero, Option.some.injEq] at hm
      subst hm
      simp only [slotsSize]
      omega
    | succ i =>
      simp only [List.getElem?_cons_succ] at hm
      have := ih i m hm
      cases o <;> simp only [slotsSize] <;> omega

/-- `slotsLen` of a cons in terms of `optLen`. -/
theorem slotsLen_cons (y : Option Node) (rest : List (Option Node)) :
    slotsLen (y :: rest) = optLen y + slotsLen rest := by
  cases y <;> simp [slotsLen, optLen]

/-- Replacing a slot changes `slotsLen` by the two slots' lengths. -/
theorem slotsLen_set :
    ∀ (ns : List (Option Node)) (h : Nat) (o x : Option Node),
      ns[h]? = some o →
      slotsLen (ns.set h x) + optLen o = slotsLen ns + optLen x := by
  intro ns
  induction ns with
  | nil => intro h o x hm; simp at hm
  | cons y rest ih =>
    intro h o x hm
    cases h with
    | zero =>
      simp only [List.getElem?_cons_zero, Option.some.injEq] at hm
      subst hm
      simp only [List.set_cons_zero, slotsLen_cons]
      omega
    | succ i =>
      simp only [List.getElem?_cons_succ] at hm
      simp only [List.set_cons_succ, slotsLen_cons]
      have := ih i o x hm
      omega

/-- All-absent slot lists have no mappings. -/
theorem slotsGet_of_allNone :
    ∀ (ns : List (Option Node)) (h : Nat) (t : Nibbles),
      ns.all Option.isNone = true → slotsGet ns h t = none := by
  intro ns
  induction ns with
  | nil => intro h t _; cases h <;> rfl
  | cons o rest ih =>
    intro h t hall
    simp only [List.all_cons, Bool.and_eq_true] at hall
    cases h with
    | zero =>
      cases o
      · rfl
      · simp at hall
    | succ i =>
      simpa [slotsGet] using ih i t hall.2

/-- All-absent slot lists have length 0. -/
theorem slotsLen_of_allNone :
    ∀ ns : List (Option Node), ns.all Option.isNone = true → slotsLen ns = 0 := by
  intro ns
  induction ns with
  | nil => intro _; rfl
  | cons o rest ih =>
    intro hall
    simp only [List.all_cons, Bool.and_eq_true] at hall
    cases o
    · simpa [slotsLen] using ih hall.2
    · simp at hall

/-- `slotsVP` of a cons in terms of `vpO`. -/
theorem slotsVP_cons (y : Option Node) (rest : List (Option Node)) :
    slotsVP (y :: rest) = (vpO y && slotsVP rest) := by
  cases y <;> simp [slotsVP, vpO]

/-- Each occupied slot of a value-complete slot list is value-complete. -/
theorem slotsVP_slot :
    ∀ (ns : List (Option Node)) (h : Nat) (o : Option Node),
      slotsVP ns = true → ns[h]? = some o → vpO o = true := by
  intro ns
  induction ns with
  | nil => intro h o _ hm; simp at hm
  | cons y rest ih =>
    intro h o hvp hm
    rw [slotsVP_cons, Bool.and_eq_true] at hvp
    cases h with
    | zero =>
      simp only [List.getElem?_cons_zero, Option.some.injEq] at hm
      exact hm ▸ hvp.1
    | succ i =>
      simp only [List.getElem?_cons_succ] at hm
      exact ih i o hvp.2 hm

/-- Setting a value-complete slot preserves `slotsVP`. -/
theorem slotsVP_set :
    ∀ (ns : List (Option Node)) (h : Nat) (x : Option Node),
      slotsVP ns = true → vpO x = true → slotsVP (ns.set h x) = true := by
  intro ns
  induction ns with
  | nil => intro h x _ _; simp [slotsVP]
  | cons y rest ih =>
    intro h x hvp hx
    rw [slotsVP_cons, Bool.and_eq_true] at hvp
    cases h with
    | zero =>
      simp only [List.set_cons_zero]
      rw [slotsVP_cons, Bool.and_eq_true]
      exact ⟨hx, hvp.2⟩
    | succ i =>
      simp only [List.set_cons_succ]
      rw [slotsVP_cons, Bool.and_eq_true]
      exact ⟨hvp.1, ih i x hvp.2 hx⟩

/-- Every node has positive structural size. -/
theorem nodeSize_pos : ∀ n : Node, 1 ≤ nodeSize n := by
  intro n
  cases n <;> simp [nodeSize]

/-- `Branch.is_empty` unfolded: all slots and the value absent. -/
theorem branch_isEmpty_iff (ns : List (Option Node)) (v : Val) :
    (Node.branch ns v).isEmpty = true ↔ (ns.all Option.isNone = true ∧ v = none) := by
  simp [Node.isEmpty, Option.isNone_iff_eq_none]

/-- In an all-absent slot list every in-range slot is absent. -/
theorem allNone_slot {ns : List (Option Node)} {h : Nat} {o : Option Node}
    (hall : ns.all Option.isNone = true) (hm : ns[h]? = some o) : o = none := by
  obtain ⟨hlt, he⟩ := List.getElem?_eq_some.mp hm
  have : Option.isNone ns[h] = true := List.all_eq_true.mp hall _ (List.getElem_mem hlt)
  rw [he] at this
  exact Option.isNone_iff_eq_none.mp this

/-! ### Nibble codec claims -/

/-- Unfolding of `bytesToNibbles` on a cons cell. -/
theorem bytesToNibbles_cons (x : Nat) (rest : Bytes) :
    bytesToNibbles (x :: rest) = x / 16 :: x % 16 :: bytesToNibbles rest := by
  simp [bytesToNibbles]

/-- Two steps of the conversion loop: a nibble pair becomes one byte when
it fits, else the overflow error. -/
theorem nibblesLoop_two (a b : Nat) (l : List Nat) :
    nibblesToBytesLoop true 0 (a :: b :: l) =
      if 16 * a + b < 256 then
        (nibblesToBytesLoop true 0 l).map (fun bs => (16 * a + b) :: bs)
      else none := by
  simp [nibblesToBytesLoop]

/-- Round-trip of the nibble codec, shared helper. -/
theorem bytes_nibbles_roundtrip_go :
    ∀ bs : Bytes, (∀ x ∈ bs, x < 256) →
      nibblesToBytes (bytesToNibbles bs) = some bs := by
  intro bs
  induction bs with
  | nil => intro _; rfl
  | cons x rest ih =>
    intro hb
    have hx : x < 256 := hb x (by simp)
    have hrest : ∀ y ∈ rest, y < 256 := fun y hy => hb y (by simp [hy])
    have ih2 := ih hrest
    simp only [nibblesToBytes] at ih2 ⊢
    rw [bytesToNibbles_cons, nibblesLoop_two]
    have hxeq : 16 * (x / 16) + x % 16 = x := by
      have := Nat.div_add_mod x 16
      omega
    rw [hxeq, if_pos hx, ih2]
    rfl

/-- C7.  For every byte string, converting to nibbles and back yields the
original byte string. -/
theorem bytes_nibbles_roundtrip (bs : Bytes) (hb : ∀ x ∈ bs, x < 256) :
    nibblesToBytes (bytesToNibbles bs) = some bs :=
  bytes_nibbles_roundtrip_go bs hb

/-- C7 witness at a concrete byte string. -/
theorem bytes_nibbles_roundtrip_witness :
    nibblesToBytes (bytesToNibbles [0, 44, 255]) = some [0, 44, 255] :=
  bytes_nibbles_roundtrip [0, 44, 255] (by decide)

/-- Helper for C8: behaviour of the conversion loop on nibble sequences,
by parity of the length. -/
theorem nibblesToBytes_parity :
    ∀ (m : Nat) (xs : List Nat), xs.length ≤ m → (∀ x ∈ xs, x < 16) →
      (xs.length % 2 = 1 → nibblesToBytes xs = none) ∧
      (xs.length % 2 = 0 → ∃ bs, nibblesToBytes xs = some bs) := by
  intro m
  induction m with
  | zero =>
    intro xs hlen _
    have : xs = [] := List.eq_nil_of_length_eq_zero (by omega)
    subst this
    exact ⟨by simp, fun _ => ⟨[], rfl⟩⟩
  | succ m ih =>
    intro xs hlen hx
    match xs with
    | [] => exact ⟨by simp, fun _ => ⟨[], rfl⟩⟩
    | [x] =>
      refine ⟨fun _ => ?_, by simp⟩
      simp [nibblesToBytes, nibblesToBytesLoop]
    | x :: y :: rest =>
      have hxv : x < 16 := hx x (by simp)
      have hyv : y < 16 := hx y (by simp)
      have hrest : ∀ z ∈ rest, z < 16 := fun z hz => hx z (by simp [hz])
      have hrlen : rest.length ≤ m := by
        have : rest.length + 2 ≤ m + 1 := by simpa using hlen
        omega
      obtain ⟨ihodd, iheven⟩ := ih rest hrlen hrest
      have hstep : nibblesToBytes (x :: y :: rest) =
          (nibblesToBytes rest).map (fun bs => (16 * x + y) :: bs) := by
        simp only [nibblesToBytes]
        rw [nibblesLoop_two, if_pos (by omega)]
      constructor
      · intro hodd
        have : rest.length % 2 = 1 := by
          have : (x :: y :: rest).length = rest.length + 2 := by simp
          omega
        rw [hstep, ihodd this]
        rfl
      · intro heven
        have : rest.length % 2 = 0 := by
          have : (x :: y :: rest).length = rest.length + 2 := by simp
          omega
        obtain ⟨bs, hbs⟩ := iheven this
        exact ⟨_, by rw [hstep, hbs]; rfl⟩

/-- C8.  On nibble sequences (values 0–15), `nibblesToBytes` fails exactly
on odd lengths: every odd-length sequence raises the invalid-length error
and every even-length sequence succeeds. -/
theorem nibblesToBytes_odd_even (xs : List Nat) (hx : ∀ x ∈ xs, x < 16) :
    (xs.length % 2 = 1 → nibblesToBytes xs = none) ∧
    (xs.length % 2 = 0 → ∃ bs, nibblesToBytes xs = some bs) :=
  nibblesToBytes_parity xs.length xs (Nat.le_refl _) hx

/-- C8 witness: a concrete odd-length failure and even-length success. -/
theorem nibblesToBytes_odd_even_witness :
    nibblesToBytes [1, 2, 3] = none ∧ nibblesToBytes [1, 2] = some [18] := by
  refine ⟨(nibblesToBytes_odd_even [1, 2, 3] (by decide)).1 (by decide), ?_⟩
  obtain ⟨bs, hbs⟩ := (nibblesToBytes_odd_even [1, 2] (by decide)).2 (by decide)
  have : nibblesToBytes [1, 2] = some [18] := by rfl
  exact this

/-! ### Identity of absence (C9) -/

/-- C9.  The absent node is a left identity for insertion: `None + leaf`
yields the leaf via `Node.__radd__`, and consequently `__setitem__` on a
trie with absent root installs the constructed leaf as the new root. -/
theorem absent_insert_identity :
    ∀ (f : Nat) (other : Node) (k v : Bytes),
      nodeAdd f none other = some other ∧
      trieSet f none k v = some (Node.leaf (bytesToNibbles k) (some v)) :=
  fun _ _ _ _ => ⟨rfl, rfl⟩

/-! ### Hash-addressed variant (C5) -/

/-- C5.  Every call of the hash-variant `Trie._set` raises: on a store hit,
`Branch.copy` passes two arguments to a one-argument constructor
(`TypeError`); on a store miss with an exhausted key the store write reads
the undefined attribute `db` (`AttributeError`); on a store miss with
nibbles remaining the recursion reads the unbound local `node`
(`NameError`).  No `_set` call stores anything or returns a hash, and the
class has no `set` method or root-hash update at all. -/
theorem hash_variant_set_always_raises :
    ∀ (hashFn : BranchH → HashV) (db : List (HashV × BranchH))
      (hsh : HashV) (key : Nibbles) (value : Bytes),
      trieSetH hashFn db hsh key value = none := by
  intro hashFn db hsh key value
  unfold trieSetH
  cases dbFind db hsh with
  | none => cases key <;> rfl
  | some node => rfl

/-! ### Branch insertion of extensions (C10) -/

/-- C10.  `Branch.insert` given a non-shallow `Extension` unconditionally
overwrites the slot at the extension's first nibble with the extension's
tail, discarding whatever occupied that slot; a non-shallow `Leaf` into an
occupied slot is instead merged recursively into the existing child. -/
theorem branch_insert_ext_overwrites :
    ∀ (f : Nat) (ns : List (Option Node)) (v : Val) (h : Nat) (t : Nibbles) (n2 : Node),
      h < ns.length →
      insertF (f + 1) (Node.branch ns v) (Node.ext (h :: t) n2) =
        some (Node.branch (ns.set h (some (extTail 1 (h :: t) n2))) v) ∧
      ∀ (m : Node) (v2 : Val), ns[h]? = some (some m) →
        insertF (f + 1) (Node.branch ns v) (Node.leaf (h :: t) v2) =
          (insertF f m (Node.leaf t v2)).map
            (fun r => Node.branch (ns.set h (some r)) v) := by
  intro f ns v h t n2 hlt
  constructor
  · simp only [insertF]
    rw [if_pos hlt]
  · intro m v2 hm
    simp only [insertF]
    rw [hm]

/-- C10 witness: a branch whose slot 3 holds a leaf; inserting an extension
with first nibble 3 discards that leaf entirely. -/
theorem branch_insert_ext_overwrites_witness :
    insertF 1 (Node.branch (empty16.set 3 (some (Node.leaf [] (some [9])))) none)
        (Node.ext [3, 5] (Node.branch empty16 (some [7]))) =
      some (Node.branch
        ((empty16.set 3 (some (Node.leaf [] (some [9])))).set 3
          (some (extTail 1 [3, 5] (Node.branch empty16 (some [7]))))) none) :=
  (branch_insert_ext_overwrites 0 _ none 3 [5] _ (by simp [empty16])).1

/-! ### Delete never returns an empty node (C4) -/

/-- C4.  A successful delete never returns an empty node: a branch whose
resulting value and slots are all absent, and an extension whose child
became absent, collapse to the absent result instead. -/
theorem delete_never_returns_empty :
    ∀ (n : Node) (k : Nibbles) (n2 : Node),
      Node.delete n k = some (some n2) → n2.isEmpty = false := by
  intro n k n2 hdel
  match n, k with
  | .leaf k1 v1, k =>
    simp only [Node.delete] at hdel
    split at hdel
    · exact Option.noConfusion (Option.some.inj hdel)
    · exact Option.noConfusion hdel
  | .ext k1 n1, k =>
    simp only [Node.delete] at hdel
    split at hdel
    · split at hdel
      · exact Option.noConfusion hdel
      · exact Option.noConfusion (Option.some.inj hdel)
      · obtain rfl := Option.some.inj (Option.some.inj hdel)
        rfl
    · exact Option.noConfusion hdel
  | .branch ns v, [] =>
    cases v with
    | none => exact Option.noConfusion (Node.delete.eq_3 ns ▸ hdel)
    | some b =>
      rw [Node.delete.eq_4] at hdel
      split at hdel
      · exact Option.noConfusion (Option.some.inj hdel)
      · rename_i hne
        obtain rfl := Option.some.inj (Option.some.inj hdel)
        exact Bool.not_eq_true _ ▸ eq_false_of_ne_true hne
  | .branch ns v, h :: t =>
    simp only [Node.delete] at hdel
    split at hdel
    · exact Option.noConfusion hdel
    · split at hdel
      · exact Option.noConfusion (Option.some.inj hdel)
      · rename_i hne
        obtain rfl := Option.some.inj (Option.some.inj hdel)
        exact Bool.not_eq_true _ ▸ eq_false_of_ne_true hne

/-! ### Delete specification (claims C2, C4, C6) -/

/-- Bundled delete specification, by strong induction on node size:
`delete` fails exactly when `get` fails; a successful delete removes the
key, preserves every other key, decrements the stored-value count by the
weight of the removed value, and preserves value-completeness. -/
theorem deleteSpecAux :
    ∀ (s : Nat) (n : Node) (k : Nibbles), nodeSize n ≤ s →
      (n.get k = none ↔ n.delete k = none) ∧
      (∀ r, n.delete k = some r →
        optGet r k = none ∧
        (∀ k2, k2 ≠ k → optGet r k2 = n.get k2) ∧
        (∃ w, n.get k = some w ∧
          n.len = optLen r + (if w.isSome then 1 else 0)) ∧
        (valuesPresent n = true → vpO r = true)) := by
  intro s
  induction s with
  | zero =>
    intro n k hs
    exact absurd (Nat.le_trans (nodeSize_pos n) hs) (by omega)
  | succ s ih =>
    intro n k hs
    match n, k with
    | .leaf kl v, k =>
      by_cases hkl : kl = k
      · subst hkl
        refine ⟨by rw [Node.get.eq_1, Node.delete.eq_1, if_pos rfl, if_pos rfl]; simp, ?_⟩
        intro r hr
        rw [Node.delete.eq_1, if_pos rfl] at hr
        obtain rfl : (none : Option Node) = r := Option.some.inj hr
        refine ⟨rfl, ?_, ⟨v, by rw [Node.get.eq_1, if_pos rfl], ?_⟩, fun _ => rfl⟩
        · intro k2 hk2
          simp only [optGet]
          rw [Node.get.eq_1, if_neg (fun h => hk2 h.symm)]
        · rw [Node.len.eq_1]
          simp [optLen]
      · refine ⟨by rw [Node.get.eq_1, Node.delete.eq_1, if_neg hkl, if_neg hkl]; simp, ?_⟩
        intro r hr
        rw [Node.delete.eq_1, if_neg hkl] at hr
        exact Option.noConfusion hr
    | .ext kl child, k =>
      have hchild : nodeSize child ≤ s := by
        simp only [nodeSize] at hs
        omega
      by_cases hcond : kl = k.take kl.length
      · have ihc := ih child (k.drop kl.length) hchild
        have hget : Node.get (.ext kl child) k = child.get (k.drop kl.length) := by
          rw [Node.get.eq_2, if_pos hcond]
        constructor
        · rw [hget, Node.delete.eq_2, if_pos hcond]
          cases hcd : child.delete (k.drop kl.length) with
          | none =>
            have : child.get (k.drop kl.length) = none := ihc.1.mpr hcd
            simp [this]
          | some cr =>
            have hne : child.get (k.drop kl.length) ≠ none := by
              intro hnone
              rw [ihc.1] at hnone
              simp [hnone] at hcd
            cases cr <;> simp [hne]
        · intro r hr
          rw [Node.delete.eq_2, if_pos hcond] at hr
          cases hcd : child.delete (k.drop kl.length) with
          | none => rw [hcd] at hr; exact Option.noConfusion hr
          | some cr =>
            rw [hcd] at hr
            obtain ⟨hD1, hD3, ⟨w, hw, hlen⟩, hD5⟩ := ihc.2 cr hcd
            cases cr with
            | none =>
              obtain rfl : (none : Option Node) = r := Option.some.inj hr
              refine ⟨rfl, ?_, ⟨w, hget ▸ hw, by rw [Node.len.eq_2, hlen]⟩,
                fun _ => rfl⟩
              intro k2 hk2
              by_cases hcond2 : kl = k2.take kl.length
              · have hdrop : k2.drop kl.length ≠ k.drop kl.length := by
                  intro hd
                  exact hk2 (by
                    rw [← List.take_append_drop kl.length k2,
                      ← List.take_append_drop kl.length k, ← hcond2, ← hcond, hd])
                have hpres := hD3 _ hdrop
                simp only [optGet] at hpres ⊢
                rw [Node.get.eq_2, if_pos hcond2, ← hpres]
              · simp only [optGet]
                rw [Node.get.eq_2, if_neg hcond2]
            | some c =>
              obtain rfl : some (Node.ext kl c) = r := Option.some.inj hr
              refine ⟨?_, ?_, ⟨w, hget ▸ hw, ?_⟩, ?_⟩
              · simp only [optGet]
                rw [Node.get.eq_2, if_pos hcond]
                simpa [optGet] using hD1
              · intro k2 hk2
                by_cases hcond2 : kl = k2.take kl.length
                · have hdrop : k2.drop kl.length ≠ k.drop kl.length := by
                    intro hd
                    exact hk2 (by
                      rw [← List.take_append_drop kl.length k2,
                        ← List.take_append_drop kl.length k, ← hcond2, ← hcond, hd])
                  have hpres := hD3 _ hdrop
                  simp only [optGet] at hpres ⊢
                  rw [Node.get.eq_2, if_pos hcond2, Node.get.eq_2, if_pos hcond2]
                  exact hpres
                · simp only [optGet]
                  rw [Node.get.eq_2, if_neg hcond2, Node.get.eq_2, if_neg hcond2]
              · rw [Node.len.eq_2, hlen]
                simp [optLen, Node.len.eq_2]
              · intro hvp
                rw [valuesPresent.eq_2] at hvp
                have := hD5 hvp
                simp only [vpO] at this ⊢
                rw [valuesPresent.eq_2]
                exact this
      · refine ⟨by rw [Node.get.eq_2, Node.delete.eq_2, if_neg hcond, if_neg hcond]; simp, ?_⟩
        intro r hr
        rw [Node.delete.eq_2, if_neg hcond] at hr
        exact Option.noConfusion hr
    | .branch ns v, [] =>
      cases v with
      | none =>
        refine ⟨by rw [Node.get.eq_3, Node.delete.eq_3]; simp, ?_⟩
        intro r hr
        rw [Node.delete.eq_3] at hr
        exact Option.noConfusion hr
      | some b =>
        refine ⟨by
          rw [Node.get.eq_4, Node.delete.eq_4]
          constructor
          · intro hg; exact Option.noConfusion hg
          · intro hd
            split at hd <;> exact Option.noConfusion hd, ?_⟩
        intro r hr
        rw [Node.delete.eq_4] at hr
        split at hr
        · rename_i hEmp
          obtain rfl : (none : Option Node) = r := Option.some.inj hr
          obtain ⟨hall, -⟩ := (branch_isEmpty_iff ns none).mp hEmp
          refine ⟨rfl, ?_, ⟨some b, by rw [Node.get.eq_4], ?_⟩, fun _ => rfl⟩
          · intro k2 hk2
            cases k2 with
            | nil => exact absurd rfl hk2
            | cons h2 t2 =>
              simp only [optGet]
              rw [Node.get.eq_5]
              exact (slotsGet_of_allNone ns h2 t2 hall).symm
          · rw [Node.len.eq_3, slotsLen_of_allNone ns hall]
            rfl
        · rename_i hEmp
          obtain rfl : some (Node.branch ns none) = r := Option.some.inj hr
          refine ⟨by simp only [optGet]; rw [Node.get.eq_3], ?_,
            ⟨some b, by rw [Node.get.eq_4], ?_⟩, ?_⟩
          · intro k2 hk2
            cases k2 with
            | nil => exact absurd rfl hk2
            | cons h2 t2 =>
              simp only [optGet]
              rw [Node.get.eq_5, Node.get.eq_5]
          · simp_arith [optLen, Node.len.eq_3]
          · intro hvp
            simp only [vpO]
            rw [valuesPresent.eq_3]
            rw [valuesPresent.eq_3] at hvp
            exact hvp
    | .branch ns v, h :: t =>
      have hget : Node.get (.branch ns v) (h :: t) = slotsGet ns h t := Node.get.eq_5 ns v h t
      cases hslot : ns[h]? with
      | none =>
        have hg : slotsGet ns h t = none := by rw [slotsGet_eq, hslot]
        have hd : slotsDelete ns h t = none := by rw [slotsDelete_eq, hslot]
        refine ⟨by rw [hget, hg, Node.delete.eq_5, hd]; simp, ?_⟩
        intro r hr
        rw [Node.delete.eq_5, hd] at hr
        exact Option.noConfusion hr
      | some o =>
        cases o with
        | none =>
          have hg : slotsGet ns h t = none := by rw [slotsGet_eq, hslot]
          have hd : slotsDelete ns h t = none := by rw [slotsDelete_eq, hslot]
          refine ⟨by rw [hget, hg, Node.delete.eq_5, hd]; simp, ?_⟩
          intro r hr
          rw [Node.delete.eq_5, hd] at hr
          exact Option.noConfusion hr
        | some m =>
          have hlt : h < ns.length := (List.getElem?_eq_some.mp hslot).1
          have hm : nodeSize m ≤ s := by
            have h1 := nodeSize_slot ns h m hslot
            simp only [nodeSize] at hs
            omega
          have ihm := ih m t hm
          have hg : slotsGet ns h t = m.get t := by rw [slotsGet_eq, hslot]
          have hd : slotsDelete ns h t = m.delete t := by rw [slotsDelete_eq, hslot]
          constructor
          · rw [hget, hg, Node.delete.eq_5, hd]
            cases hmd : m.delete t with
            | none =>
              have : m.get t = none := ihm.1.mpr hmd
              simp [this]
            | some cr =>
              have hne : m.get t ≠ none := by
                intro hnone
                rw [ihm.1] at hnone
                simp [hnone] at hmd
              show m.get t = none ↔
                (if (Node.branch (ns.set h cr) v).isEmpty = true then some none
                  else some (some (Node.branch (ns.set h cr) v))) = none
              split <;> simp [hne]
          · intro r hr
            rw [Node.delete.eq_5, hd] at hr
            cases hmd : m.delete t with
            | none => rw [hmd] at hr; exact Option.noConfusion hr
            | some cr =>
              rw [hmd] at hr
              obtain ⟨hD1, hD3, ⟨w, hw, hlen⟩, hD5⟩ := ihm.2 cr hmd
              have hset : (ns.set h cr)[h]? = some cr := by
                rw [List.getElem?_set_self hlt]
              have hsetlen := slotsLen_set ns h (some m) cr hslot
              have hr2 : (if (Node.branch (ns.set h cr) v).isEmpty = true then some none
                  else some (some (Node.branch (ns.set h cr) v))) = some r := hr
              split at hr2
              · rename_i hEmp
                obtain rfl : (none : Option Node) = r := Option.some.inj hr2
                obtain ⟨hall, hv⟩ := (branch_isEmpty_iff _ _).mp hEmp
                subst hv
                have hcr : cr = none := allNone_slot hall hset
                subst hcr
                refine ⟨rfl, ?_, ⟨w, by rw [hget, hg, hw], ?_⟩, fun _ => rfl⟩
                · intro k2 hk2
                  cases k2 with
                  | nil =>
                    simp only [optGet]
                    rw [Node.get.eq_3]
                  | cons h2 t2 =>
                    simp only [optGet]
                    rw [Node.get.eq_5, slotsGet_eq]
                    by_cases hh : h2 = h
                    · subst hh
                      rw [hslot]
                      have ht2 : t2 ≠ t := fun he => hk2 (by rw [he])
                      have := hD3 t2 ht2
                      simp only [optGet] at this
                      exact this
                    · have heq2 : ns[h2]? = (ns.set h none)[h2]? := by
                        rw [List.getElem?_set_ne (fun he => hh he.symm)]
                      rw [heq2]
                      cases h2slot : (ns.set h none)[h2]? with
                      | none => rfl
                      | some o2 =>
                        have := allNone_slot hall h2slot
                        subst this
                        rfl
                · have hsl2 : slotsLen (ns.set h none) = 0 := slotsLen_of_allNone _ hall
                  rw [Node.len.eq_3]
                  simp [optLen] at hsetlen hlen ⊢
                  omega
              · rename_i hEmp
                obtain rfl : some (Node.branch (ns.set h cr) v) = r := Option.some.inj hr2
                refine ⟨?_, ?_, ⟨w, by rw [hget, hg, hw], ?_⟩, ?_⟩
                · simp only [optGet]
                  rw [Node.get.eq_5, slotsGet_eq, hset]
                  cases cr with
                  | none => rfl
                  | some c => simpa [optGet] using hD1
                · intro k2 hk2
                  cases k2 with
                  | nil =>
                    simp only [optGet]
                    cases v with
                    | none => rw [Node.get.eq_3, Node.get.eq_3]
                    | some b => rw [Node.get.eq_4, Node.get.eq_4]
                  | cons h2 t2 =>
                    simp only [optGet]
                    rw [Node.get.eq_5, Node.get.eq_5, slotsGet_eq, slotsGet_eq]
                    by_cases hh : h2 = h
                    · subst hh
                      rw [hslot, hset]
                      have ht2 : t2 ≠ t := fun he => hk2 (by rw [he])
                      have := hD3 t2 ht2
                      simp only [optGet] at this
                      cases cr with
                      | none => exact this
                      | some c => exact this
                    · rw [List.getElem?_set_ne (fun he => hh he.symm)]
                · simp only [optLen] at hsetlen hlen ⊢
                  rw [Node.len.eq_3, Node.len.eq_3]
                  omega
                · intro hvp
                  rw [valuesPresent.eq_3] at hvp
                  have hvm : valuesPresent m = true := by
                    have := slotsVP_slot ns h (some m) hvp hslot
                    simpa [vpO] using this
                  have hcr := hD5 hvm
                  simp only [vpO]
                  rw [valuesPresent.eq_3]
                  exact slotsVP_set ns h cr hvp hcr

/-- C2.  Delete-then-get: a successful delete of a key makes `get` on that
key fail with the key-not-found error in the resulting subtree, and a
delete of a key with no mapping (where `get` fails) itself fails with the
key-not-found error — and, the operations being pure, returns no new node,
leaving the original trie version untouched. -/
theorem delete_then_get (n : Node) (k : Nibbles) :
    (∀ r, Node.delete n k = some r → optGet r k = none) ∧
    (Node.get n k = none → Node.delete n k = none) := by
  have hd := deleteSpecAux (nodeSize n) n k (Nat.le_refl _)
  exact ⟨fun r hr => (hd.2 r hr).1, fun hg => hd.1.mp hg⟩

/-- C2 witness: deleting key `[6,3]` inside an extension-over-branch makes
it unreadable, and deleting missing key `[5]` fails. -/
theorem delete_then_get_witness :
    optGet (some (Node.ext [6] (Node.branch
        ((empty16.set 3 (some (Node.leaf [] (some [9])))).set 3 none)
        (some [7])))) [6, 3] = none ∧
    Node.delete (Node.ext [6] (Node.branch
        (empty16.set 3 (some (Node.leaf [] (some [9])))) (some [7]))) [5] = none :=
  ⟨(delete_then_get (Node.ext [6] (Node.branch
        (empty16.set 3 (some (Node.leaf [] (some [9])))) (some [7]))) [6, 3]).1 _ rfl,
   (delete_then_get (Node.ext [6] (Node.branch
        (empty16.set 3 (some (Node.leaf [] (some [9])))) (some [7]))) [5]).2 rfl⟩

/-- C4 witness: deleting one of two keys from a branch produces a
non-empty branch. -/
theorem delete_never_returns_empty_witness :
    (Node.branch (((empty16.set 0 (some (Node.leaf [] (some [1])))).set 1
        (some (Node.leaf [] (some [2])))).set 0 none) none).isEmpty = false :=
  delete_never_returns_empty
    (Node.branch ((empty16.set 0 (some (Node.leaf [] (some [1])))).set 1
      (some (Node.leaf [] (some [2])))) none) [0] _ rfl

/-! ### Insert support lemmas -/

/-- The common-prefix length is bounded by the left argument's length. -/
theorem prefixLength_le_left : ∀ a b : Nibbles, prefixLength a b ≤ a.length := by
  intro a
  induction a with
  | nil => intro b; simp [prefixLength]
  | cons x xs ih =>
    intro b
    cases b with
    | nil => simp [prefixLength]
    | cons y ys =>
      simp only [prefixLength]
      split
      · have := ih ys
        simp only [List.length_cons]
        omega
      · simp

/-- The common-prefix length is bounded by the right argument's length. -/
theorem prefixLength_le_right : ∀ a b : Nibbles, prefixLength a b ≤ b.length := by
  intro a
  induction a with
  | nil => intro b; simp [prefixLength]
  | cons x xs ih =>
    intro b
    cases b with
    | nil => simp [prefixLength]
    | cons y ys =>
      simp only [prefixLength]
      split
      · have := ih ys
        simp only [List.length_cons]
        omega
      · simp

/-- The two arguments agree on their common prefix. -/
theorem prefixLength_take :
    ∀ a b : Nibbles, a.take (prefixLength a b) = b.take (prefixLength a b) := by
  intro a
  induction a with
  | nil => intro b; simp [prefixLength]
  | cons x xs ih =>
    intro b
    cases b with
    | nil => simp [prefixLength]
    | cons y ys =>
      simp only [prefixLength]
      split
      · rename_i hxy
        subst hxy
        simp [List.take_succ_cons, ih ys]
      · simp

/-- Sequences with empty common prefix and both non-empty differ in
their heads. -/
theorem prefixLength_zero_head :
    ∀ (x y : Nat) (xs ys : List Nat),
      prefixLength (x :: xs) (y :: ys) = 0 → x ≠ y := by
  intro x y xs ys h hxy
  subst hxy
  simp [prefixLength] at h

/-- Indexing the 16 fresh slots. -/
theorem empty16_getElem (i : Nat) :
    empty16[i]? = if i < 16 then some none else none := by
  show (List.replicate 16 (none : Option Node))[i]? = _
  exact List.getElem?_replicate

/-- Fresh slots contain no mappings. -/
theorem slotsGet_empty16 (h : Nat) (t : Nibbles) : slotsGet empty16 h t = none := by
  rw [slotsGet_eq, empty16_getElem]
  by_cases hlt : h < 16
  · rw [if_pos hlt]
  · rw [if_neg hlt]

/-- Fresh slots have length 0. -/
theorem slotsLen_empty16 : slotsLen empty16 = 0 := rfl

/-- Fresh slots are value-complete. -/
theorem slotsVP_empty16 : slotsVP empty16 = true := rfl

/-- `extTail` preserves the stored values of the child. -/
theorem extTail_vp (l : Nat) (k : Nibbles) (n : Node) :
    valuesPresent (extTail l k n) = valuesPresent n := by
  unfold extTail
  split
  · rfl
  · rw [valuesPresent.eq_2]

/-- `extTail` preserves the stored-value count of the child. -/
theorem extTail_len (l : Nat) (k : Nibbles) (n : Node) :
    (extTail l k n).len = n.len := by
  unfold extTail
  split
  · rfl
  · rw [Node.len.eq_2]

/-- Lookups in `extTail l k n` with the first `l` nibbles consumed agree
with lookups in `Extension(k, n)` on the whole key. -/
theorem extTail_get (l : Nat) (k : Nibbles) (n : Node) (key : Nibbles)
    (htake : k.take l = key.take l) (hle : l ≤ k.length) :
    (extTail l k n).get (key.drop l) = (Node.ext k n).get key := by
  unfold extTail
  rw [Node.get.eq_2]
  split
  · rename_i hnil
    have hkl : k.length = l := by
      have h1 := List.length_drop l k
      rw [hnil] at h1
      simp at h1
      omega
    have hcond : k = key.take k.length := by
      have h2 : k.take l = k := List.take_of_length_le (by omega)
      rw [hkl, ← htake, h2]
    rw [if_pos hcond, hkl]
  · rename_i hnil
    rw [Node.get.eq_2]
    have hlen : (k.drop l).length = k.length - l := List.length_drop l k
    by_cases hcond : k = key.take k.length
    · have hc2 : k.drop l = (key.drop l).take ((k.drop l).length) := by
        rw [hlen]
        conv_lhs => rw [hcond]
        exact List.drop_take k.length l key
      rw [if_pos hc2, if_pos hcond, hlen, List.drop_drop]
      have hsum : l + (k.length - l) = k.length := by omega
      rw [hsum]
    · have hc2 : ¬(k.drop l = (key.drop l).take ((k.drop l).length)) := by
        intro hd
        apply hcond
        rw [hlen] at hd
        have hsum : l + (k.length - l) = k.length := by omega
        calc k = k.take l ++ k.drop l := (List.take_append_drop l k).symm
          _ = key.take l ++ (key.drop l).take (k.length - l) := by rw [htake, hd]
          _ = key.take (l + (k.length - l)) := (List.take_add key l (k.length - l)).symm
          _ = key.take k.length := by rw [hsum]
      rw [if_neg hc2, if_neg hcond]

/-- A key matching an extension key agrees with it on any shorter take. -/
theorem take_of_take_length {k key : Nibbles} (l : Nat)
    (hcond : k = key.take k.length) (hle : l ≤ k.length) :
    k.take l = key.take l := by
  conv_lhs => rw [hcond]
  rw [List.take_take]
  congr 1
  omega

/-- An extension whose key starts with a different nibble matches nothing. -/
theorem ext_get_cons_ne (hh h2 : Nat) (tt t2 : Nibbles) (child : Node)
    (hne : h2 ≠ hh) :
    Node.get (Node.ext (hh :: tt) child) (h2 :: t2) = none := by
  rw [Node.get.eq_2, if_neg]
  intro he
  rw [List.length_cons, List.take_succ_cons] at he
  exact hne (List.cons.inj he).1.symm

/-- An extension with a non-empty key does not match the empty key. -/
theorem ext_get_nil (hh : Nat) (tt : Nibbles) (child : Node) :
    Node.get (Node.ext (hh :: tt) child) [] = none := by
  rw [Node.get.eq_2, if_neg]
  intro he
  simp at he

/-- Two sequences equal on both sides of a split are equal. -/
theorem eq_of_take_drop {l : Nat} {a b : Nibbles}
    (h1 : a.take l = b.take l) (h2 : a.drop l = b.drop l) : a = b := by
  calc a = a.take l ++ a.drop l := (List.take_append_drop l a).symm
    _ = b.take l ++ b.drop l := by rw [h1, h2]
    _ = b := List.take_append_drop l b

/-! ### Insert specification (claims C1, C6) -/

/-- Bundled insert specification, by induction on the fuel: inserting a
leaf with a present value into a value-complete tree preserves value
completeness, makes the leaf's key map to the leaf's value, preserves
every other key, and grows the stored-value count by one exactly when the
key was previously unmapped. -/
theorem insertSpecAux :
    ∀ (f : Nat) (n : Node) (kl : Nibbles) (bv : Bytes) (r : Node),
      valuesPresent n = true →
      insertF f n (Node.leaf kl (some bv)) = some r →
      valuesPresent r = true ∧
      r.get kl = some (some bv) ∧
      (∀ k2, k2 ≠ kl → r.get k2 = n.get k2) ∧
      r.len + (if (n.get kl).isSome then 1 else 0) = n.len + 1 := by
  intro f
  induction f with
  | zero =>
    intro n kl bv r _ hins
    exact Option.noConfusion hins
  | succ f ih =>
    intro n kl bv r hvp hins
    match n with
    | .leaf k v =>
      have hvs : v.isSome = true := by
        rw [valuesPresent.eq_1] at hvp
        exact hvp
      simp only [insertF.eq_2] at hins
      by_cases hk : k = kl
      · subst hk
        rw [if_pos rfl] at hins
        obtain rfl : Node.leaf k (some bv) = r := Option.some.inj hins
        refine ⟨by rw [valuesPresent.eq_1]; rfl,
          by rw [Node.get.eq_1, if_pos rfl], ?_, ?_⟩
        · intro k2 hk2
          rw [Node.get.eq_1, Node.get.eq_1, if_neg (fun h => hk2 h.symm),
            if_neg (fun h => hk2 h.symm)]
        · rw [Node.len.eq_1, Node.len.eq_1, Node.get.eq_1, if_pos rfl]
          simp [hvs]
      · rw [if_neg hk] at hins
        by_cases hks : k = []
        · subst hks
          rw [if_pos rfl] at hins
          have hvpb : valuesPresent (Node.branch empty16 v) = true := by
            rw [valuesPresent.eq_3]
            exact slotsVP_empty16
          obtain ⟨hvp2, hget2, hpres2, hlen2⟩ := ih (Node.branch empty16 v) kl bv r hvpb hins
          refine ⟨hvp2, hget2, ?_, ?_⟩
          · intro k2 hk2
            rw [hpres2 k2 hk2]
            cases k2 with
            | nil =>
              obtain ⟨b, rfl⟩ := Option.isSome_iff_exists.mp hvs
              rw [Node.get.eq_4, Node.get.eq_1, if_pos rfl]
            | cons h2 t2 =>
              rw [Node.get.eq_5, slotsGet_empty16, Node.get.eq_1, if_neg (by simp)]
          · cases kl with
            | nil => exact absurd rfl hk
            | cons hh tt =>
              rw [Node.get.eq_5, slotsGet_empty16, Node.len.eq_3, slotsLen_empty16] at hlen2
              rw [Node.get.eq_1, if_neg hk, Node.len.eq_1]
              simpa using hlen2
        · rw [if_neg hks] at hins
          by_cases hkls : kl = []
          · subst hkls
            rw [if_pos rfl] at hins
            obtain ⟨bv2, rfl⟩ : ∃ b, v = some b := Option.isSome_iff_exists.mp hvs
            have hvpb : valuesPresent (Node.branch empty16 (some bv)) = true := by
              rw [valuesPresent.eq_3]
              exact slotsVP_empty16
            obtain ⟨hvp2, hget2, hpres2, hlen2⟩ :=
              ih (Node.branch empty16 (some bv)) k bv2 r hvpb hins
            refine ⟨hvp2, ?_, ?_, ?_⟩
            · rw [hpres2 [] (fun h => hks h.symm), Node.get.eq_4]
            · intro k2 hk2
              by_cases hk2k : k2 = k
              · subst hk2k
                rw [hget2, Node.get.eq_1, if_pos rfl]
              · rw [hpres2 k2 hk2k]
                cases k2 with
                | nil => exact absurd rfl hk2
                | cons h2 t2 =>
                  rw [Node.get.eq_5, slotsGet_empty16, Node.get.eq_1,
                    if_neg (fun h => hk2k h.symm)]
            · cases k with
              | nil => exact absurd rfl hks
              | cons hh tt =>
                rw [Node.get.eq_5, slotsGet_empty16, Node.len.eq_3, slotsLen_empty16] at hlen2
                rw [Node.get.eq_1, if_neg (by simp), Node.len.eq_1]
                simpa using hlen2
          · rw [if_neg hkls] at hins
            by_cases hlpos : 0 < prefixLength k kl
            · rw [if_pos hlpos] at hins
              obtain ⟨m, hm, rfl⟩ := Option.map_eq_some'.mp hins
              have hvpl : valuesPresent (Node.leaf (k.drop (prefixLength k kl)) v) = true := by
                rw [valuesPresent.eq_1]
                exact hvs
              obtain ⟨hvp2, hget2, hpres2, hlen2⟩ := ih _ _ bv m hvpl hm
              have hlle : prefixLength k kl ≤ k.length := prefixLength_le_left k kl
              have htake : k.take (prefixLength k kl) = kl.take (prefixLength k kl) :=
                prefixLength_take k kl
              have hlenkl : (k.take (prefixLength k kl)).length = prefixLength k kl := by
                rw [List.length_take]
                omega
              have hcondkl : k.take (prefixLength k kl) =
                  kl.take (k.take (prefixLength k kl)).length := by
                rw [hlenkl, htake]
              refine ⟨by rw [valuesPresent.eq_2]; exact hvp2, ?_, ?_, ?_⟩
              · rw [Node.get.eq_2, if_pos hcondkl, hlenkl, hget2]
              · intro k2 hk2
                by_cases hc2 : k.take (prefixLength k kl) =
                    k2.take (k.take (prefixLength k kl)).length
                · have htake2 : k.take (prefixLength k kl) = k2.take (prefixLength k kl) := by
                    have h9 := hc2
                    rw [hlenkl] at h9
                    exact h9
                  have hdropne : k2.drop (prefixLength k kl) ≠ kl.drop (prefixLength k kl) :=
                    fun hd => hk2 (eq_of_take_drop (htake2.symm.trans htake) hd)
                  rw [Node.get.eq_2, if_pos hc2, hlenkl, hpres2 _ hdropne,
                    Node.get.eq_1, Node.get.eq_1]
                  by_cases heq : k = k2
                  · subst heq
                    rw [if_pos rfl, if_pos rfl]
                  · have hdne : k.drop (prefixLength k kl) ≠ k2.drop (prefixLength k kl) :=
                      fun hd => heq (eq_of_take_drop htake2 hd)
                    rw [if_neg hdne, if_neg heq]
                · rw [Node.get.eq_2, if_neg hc2, Node.get.eq_1]
                  have hne : k ≠ k2 := by
                    intro he
                    subst he
                    exact hc2 (by rw [hlenkl])
                  rw [if_neg hne]
              · have hdropne : k.drop (prefixLength k kl) ≠ kl.drop (prefixLength k kl) :=
                  fun hd => hk (eq_of_take_drop htake hd)
                rw [Node.get.eq_1, if_neg hdropne, Node.len.eq_1] at hlen2
                rw [Node.len.eq_2, Node.len.eq_1, Node.get.eq_1, if_neg hk]
                simpa using hlen2
            · rw [if_neg hlpos] at hins
              obtain ⟨b1, hb1, hr⟩ := Option.bind_eq_some.mp hins
              obtain ⟨bv2, rfl⟩ : ∃ b, v = some b := Option.isSome_iff_exists.mp hvs
              have hvpb : valuesPresent (Node.branch empty16 none) = true := by
                rw [valuesPresent.eq_3]
                exact slotsVP_empty16
              obtain ⟨hvp1, hget1, hpres1, hlen1⟩ := ih _ _ bv2 b1 hvpb hb1
              obtain ⟨hvp2, hget2, hpres2, hlen2⟩ := ih b1 kl bv r hvp1 hr
              refine ⟨hvp2, hget2, ?_, ?_⟩
              · intro k2 hk2
                rw [hpres2 k2 hk2]
                by_cases hk2k : k2 = k
                · subst hk2k
                  rw [hget1, Node.get.eq_1, if_pos rfl]
                · rw [hpres1 k2 hk2k]
                  cases k2 with
                  | nil =>
                    rw [Node.get.eq_3, Node.get.eq_1, if_neg (fun h => hks h)]
                  | cons h2 t2 =>
                    rw [Node.get.eq_5, slotsGet_empty16, Node.get.eq_1,
                      if_neg (fun h => hk2k h.symm)]
              · cases k with
                | nil => exact absurd rfl hks
                | cons hh tt =>
                  rw [Node.get.eq_5, slotsGet_empty16, Node.len.eq_3,
                    slotsLen_empty16] at hlen1
                  have hklk : kl ≠ (hh :: tt : List Nat) := fun h => hk h.symm
                  rw [hpres1 kl hklk] at hlen2
                  cases kl with
                  | nil => exact absurd rfl hkls
                  | cons h3 t3 =>
                    rw [Node.get.eq_5, slotsGet_empty16] at hlen2
                    rw [Node.get.eq_1, if_neg hk, Node.len.eq_1]
                    simp only [Option.isSome_none, Bool.false_eq_true, if_false,
                      Option.isSome_some, if_true, Node.len.eq_3, slotsLen_empty16] at hlen1 hlen2 ⊢
                    omega
    | .ext k child =>
      have hvc : valuesPresent child = true := by
        rw [valuesPresent.eq_2] at hvp
        exact hvp
      simp only [insertF.eq_4] at hins
      by_cases hk : k = []
      · subst hk
        rw [if_pos rfl] at hins
        obtain ⟨hvp2, hget2, hpres2, hlen2⟩ := ih child kl bv r hvc hins
        have hgetzero : ∀ key : Nibbles,
            Node.get (Node.ext [] child) key = child.get key := by
          intro key
          rw [Node.get.eq_2]
          simp
        refine ⟨hvp2, hget2, ?_, ?_⟩
        · intro k2 hk2
          rw [hpres2 k2 hk2, hgetzero]
        · rw [hgetzero, Node.len.eq_2]
          exact hlen2
      · rw [if_neg hk] at hins
        by_cases hkls : kl = []
        · subst hkls
          rw [if_pos rfl] at hins
          cases k with
          | nil => exact absurd rfl hk
          | cons hh tt =>
            cases f with
            | zero => exact Option.noConfusion hins
            | succ f2 =>
              rw [insertF.eq_9] at hins
              have h16 : empty16.length = 16 := by simp [empty16]
              by_cases hlt : hh < 16
              · rw [if_pos (by rw [h16]; exact hlt)] at hins
                obtain rfl : Node.branch
                    (empty16.set hh (some (extTail 1 (hh :: tt) child))) (some bv) = r :=
                  Option.some.inj hins
                have hx : (empty16.set hh (some (extTail 1 (hh :: tt) child)))[hh]? =
                    some (some (extTail 1 (hh :: tt) child)) :=
                  List.getElem?_set_self (by rw [h16]; exact hlt)
                have hslotlen := slotsLen_set empty16 hh none
                  (some (extTail 1 (hh :: tt) child)) (by rw [empty16_getElem, if_pos hlt])
                refine ⟨?_, by rw [Node.get.eq_4], ?_, ?_⟩
                · rw [valuesPresent.eq_3]
                  exact slotsVP_set empty16 hh _ slotsVP_empty16
                    (by simp only [vpO]; rw [extTail_vp]; exact hvc)
                · intro k2 hk2
                  cases k2 with
                  | nil => exact absurd rfl hk2
                  | cons h2 t2 =>
                    rw [Node.get.eq_5, slotsGet_eq]
                    by_cases hh2 : h2 = hh
                    · subst hh2
                      rw [hx]
                      have hetg := extTail_get 1 (h2 :: tt) child (h2 :: t2)
                        (by simp) (by simp)
                      simp only [List.drop_one, List.tail_cons] at hetg
                      exact hetg
                    · rw [List.getElem?_set_ne (fun he => hh2 he.symm), empty16_getElem,
                        ext_get_cons_ne hh h2 tt t2 child hh2]
                      by_cases h2lt : h2 < 16
                      · rw [if_pos h2lt]
                      · rw [if_neg h2lt]
                · rw [ext_get_nil, Node.len.eq_3, Node.len.eq_2]
                  simp only [optLen] at hslotlen
                  rw [extTail_len] at hslotlen
                  simp only [Option.isSome_none, Bool.false_eq_true, if_false,
                    Option.isSome_some, if_true, slotsLen_empty16] at hslotlen ⊢
                  omega
              · rw [if_neg (by rw [h16]; exact hlt)] at hins
                exact Option.noConfusion hins
        · rw [if_neg hkls] at hins
          by_cases hlpos : 0 < prefixLength k kl
          · rw [if_pos hlpos] at hins
            obtain ⟨m, hm, rfl⟩ := Option.map_eq_some'.mp hins
            have hvpt : valuesPresent (extTail (prefixLength k kl) k child) = true := by
              rw [extTail_vp]
              exact hvc
            obtain ⟨hvp2, hget2, hpres2, hlen2⟩ := ih _ _ bv m hvpt hm
            have hlle : prefixLength k kl ≤ k.length := prefixLength_le_left k kl
            have htake : k.take (prefixLength k kl) = kl.take (prefixLength k kl) :=
              prefixLength_take k kl
            have hlenkl : (k.take (prefixLength k kl)).length = prefixLength k kl := by
              rw [List.length_take]
              omega
            have hcondkl : k.take (prefixLength k kl) =
                kl.take (k.take (prefixLength k kl)).length := by
              rw [hlenkl, htake]
            refine ⟨by rw [valuesPresent.eq_2]; exact hvp2, ?_, ?_, ?_⟩
            · rw [Node.get.eq_2, if_pos hcondkl, hlenkl, hget2]
            · intro k2 hk2
              by_cases hc2 : k.take (prefixLength k kl) =
                  k2.take (k.take (prefixLength k kl)).length
              · have htake2 : k.take (prefixLength k kl) = k2.take (prefixLength k kl) := by
                  have h9 := hc2
                  rw [hlenkl] at h9
                  exact h9
                have hdropne : k2.drop (prefixLength k kl) ≠ kl.drop (prefixLength k kl) :=
                  fun hd => hk2 (eq_of_take_drop (htake2.symm.trans htake) hd)
                rw [Node.get.eq_2, if_pos hc2, hlenkl, hpres2 _ hdropne]
                exact extTail_get (prefixLength k kl) k child k2 htake2 hlle
              · rw [Node.get.eq_2, if_neg hc2, Node.get.eq_2,
                  if_neg (fun he => hc2 (by
                    rw [hlenkl]
                    exact take_of_take_length (prefixLength k kl) he hlle))]
            · have hwn := extTail_get (prefixLength k kl) k child kl htake hlle
              rw [hwn, extTail_len] at hlen2
              rw [Node.len.eq_2, Node.len.eq_2]
              exact hlen2
          · rw [if_neg hlpos] at hins
            obtain ⟨b1, hb1, hr⟩ := Option.bind_eq_some.mp hins
            cases k with
            | nil => exact absurd rfl hk
            | cons hh tt =>
              cases f with
              | zero => exact Option.noConfusion hb1
              | succ f2 =>
                rw [insertF.eq_9] at hb1
                have h16 : empty16.length = 16 := by simp [empty16]
                by_cases hlt : hh < 16
                · rw [if_pos (by rw [h16]; exact hlt)] at hb1
                  obtain rfl : Node.branch
                      (empty16.set hh (some (extTail 1 (hh :: tt) child))) none = b1 :=
                    Option.some.inj hb1
                  have hx : (empty16.set hh (some (extTail 1 (hh :: tt) child)))[hh]? =
                      some (some (extTail 1 (hh :: tt) child)) :=
                    List.getElem?_set_self (by rw [h16]; exact hlt)
                  have hslotlen := slotsLen_set empty16 hh none
                    (some (extTail 1 (hh :: tt) child)) (by rw [empty16_getElem, if_pos hlt])
                  have hvp1 : valuesPresent (Node.branch
                      (empty16.set hh (some (extTail 1 (hh :: tt) child))) none) = true := by
                    rw [valuesPresent.eq_3]
                    exact slotsVP_set empty16 hh _ slotsVP_empty16
                      (by simp only [vpO]; rw [extTail_vp]; exact hvc)
                  have hget1 : ∀ k2, Node.get (Node.branch
                      (empty16.set hh (some (extTail 1 (hh :: tt) child))) none) k2 =
                      Node.get (Node.ext (hh :: tt) child) k2 := by
                    intro k2
                    cases k2 with
                    | nil => rw [Node.get.eq_3, ext_get_nil]
                    | cons h2 t2 =>
                      rw [Node.get.eq_5, slotsGet_eq]
                      by_cases hh2 : h2 = hh
                      · subst hh2
                        rw [hx]
                        have hetg := extTail_get 1 (h2 :: tt) child (h2 :: t2)
                          (by simp) (by simp)
                        simp only [List.drop_one, List.tail_cons] at hetg
                        exact hetg
                      · rw [List.getElem?_set_ne (fun he => hh2 he.symm), empty16_getElem,
                          ext_get_cons_ne hh h2 tt t2 child hh2]
                        by_cases h2lt : h2 < 16
                        · rw [if_pos h2lt]
                        · rw [if_neg h2lt]
                  have hlen1 : Node.len (Node.branch
                      (empty16.set hh (some (extTail 1 (hh :: tt) child))) none) =
                      child.len := by
                    rw [Node.len.eq_3]
                    simp only [optLen] at hslotlen
                    rw [extTail_len] at hslotlen
                    simp only [Option.isSome_none, Bool.false_eq_true, if_false,
                      slotsLen_empty16] at hslotlen ⊢
                    omega
                  obtain ⟨hvp2, hget2, hpres2, hlen2⟩ := ih _ kl bv r hvp1 hr
                  refine ⟨hvp2, hget2, ?_, ?_⟩
                  · intro k2 hk2
                    rw [hpres2 k2 hk2, hget1]
                  · rw [hget1 kl, hlen1] at hlen2
                    rw [Node.len.eq_2]
                    exact hlen2
                · rw [if_neg (by rw [h16]; exact hlt)] at hb1
                  exact Option.noConfusion hb1
    | .branch ns v =>
      have hvslots : slotsVP ns = true := by
        rw [valuesPresent.eq_3] at hvp
        exact hvp
      cases kl with
      | nil =>
        rw [insertF.eq_6] at hins
        obtain rfl : Node.branch ns (some bv) = r := Option.some.inj hins
        refine ⟨by rw [valuesPresent.eq_3]; exact hvslots, by rw [Node.get.eq_4], ?_, ?_⟩
        · intro k2 hk2
          cases k2 with
          | nil => exact absurd rfl hk2
          | cons h2 t2 => rw [Node.get.eq_5, Node.get.eq_5]
        · cases v with
          | none =>
            rw [Node.get.eq_3, Node.len.eq_3, Node.len.eq_3]
            simp_arith
          | some b =>
            rw [Node.get.eq_4, Node.len.eq_3, Node.len.eq_3]
            simp_arith
      | cons hh tt =>
        rw [insertF.eq_7] at hins
        cases hslot : ns[hh]? with
        | none =>
          rw [hslot] at hins
          exact Option.noConfusion hins
        | some o =>
          have hlt : hh < ns.length := (List.getElem?_eq_some.mp hslot).1
          cases o with
          | none =>
            rw [hslot] at hins
            obtain rfl : Node.branch (ns.set hh (some (Node.leaf tt (some bv)))) v = r :=
              Option.some.inj hins
            have hx : (ns.set hh (some (Node.leaf tt (some bv))))[hh]? =
                some (some (Node.leaf tt (some bv))) := List.getElem?_set_self hlt
            have hslotlen := slotsLen_set ns hh none (some (Node.leaf tt (some bv))) hslot
            have hwn : Node.get (Node.branch ns v) (hh :: tt) = none := by
              rw [Node.get.eq_5, slotsGet_eq, hslot]
            refine ⟨?_, ?_, ?_, ?_⟩
            · rw [valuesPresent.eq_3]
              exact slotsVP_set ns hh _ hvslots
                (by simp only [vpO]; rw [valuesPresent.eq_1]; rfl)
            · rw [Node.get.eq_5, slotsGet_eq, hx]
              show (Node.leaf tt (some bv)).get tt = some (some bv)
              rw [Node.get.eq_1, if_pos rfl]
            · intro k2 hk2
              cases k2 with
              | nil =>
                cases v with
                | none => rw [Node.get.eq_3, Node.get.eq_3]
                | some b => rw [Node.get.eq_4, Node.get.eq_4]
              | cons h2 t2 =>
                rw [Node.get.eq_5, Node.get.eq_5, slotsGet_eq, slotsGet_eq]
                by_cases hh2 : h2 = hh
                · subst hh2
                  rw [hx, hslot]
                  have ht2 : tt ≠ t2 := fun he => hk2 (by rw [he])
                  show (Node.leaf tt (some bv)).get t2 = none
                  rw [Node.get.eq_1, if_neg ht2]
                · rw [List.getElem?_set_ne (fun he => hh2 he.symm)]
            · rw [hwn, Node.len.eq_3, Node.len.eq_3]
              simp only [optLen, Node.len.eq_1] at hslotlen
              simp only [Option.isSome_none, Bool.false_eq_true, if_false,
                Option.isSome_some, if_true] at hslotlen ⊢
              omega
          | some m =>
            rw [hslot] at hins
            obtain ⟨m2, hm2, rfl⟩ := Option.map_eq_some'.mp hins
            have hvm : valuesPresent m = true := by
              have := slotsVP_slot ns hh (some m) hvslots hslot
              simpa [vpO] using this
            obtain ⟨hvp2, hget2, hpres2, hlen2⟩ := ih m tt bv m2 hvm hm2
            have hx : (ns.set hh (some m2))[hh]? = some (some m2) :=
              List.getElem?_set_self hlt
            have hslotlen := slotsLen_set ns hh (some m) (some m2) hslot
            have hwn : Node.get (Node.branch ns v) (hh :: tt) = m.get tt := by
              rw [Node.get.eq_5, slotsGet_eq, hslot]
            refine ⟨?_, ?_, ?_, ?_⟩
            · rw [valuesPresent.eq_3]
              exact slotsVP_set ns hh _ hvslots (by simpa [vpO] using hvp2)
            · rw [Node.get.eq_5, slotsGet_eq, hx]
              show m2.get tt = some (some bv)
              exact hget2
            · intro k2 hk2
              cases k2 with
              | nil =>
                cases v with
                | none => rw [Node.get.eq_3, Node.get.eq_3]
                | some b => rw [Node.get.eq_4, Node.get.eq_4]
              | cons h2 t2 =>
                rw [Node.get.eq_5, Node.get.eq_5, slotsGet_eq, slotsGet_eq]
                by_cases hh2 : h2 = hh
                · subst hh2
                  rw [hx, hslot]
                  have ht2 : t2 ≠ tt := fun he => hk2 (by rw [he])
                  show m2.get t2 = m.get t2
                  exact hpres2 t2 ht2
                · rw [List.getElem?_set_ne (fun he => hh2 he.symm)]
            · rw [hwn, Node.len.eq_3, Node.len.eq_3]
              simp only [optLen] at hslotlen
              omega

/-- Insert-then-get for the inserted key alone, for arbitrary trees: any
successful insert of a leaf carrying a present value makes its key map to
its value. -/
theorem insert_get_aux :
    ∀ (f : Nat) (n : Node) (kl : Nibbles) (bv : Bytes) (r : Node),
      insertF f n (Node.leaf kl (some bv)) = some r →
      r.get kl = some (some bv) := by
  intro f
  induction f with
  | zero =>
    intro n kl bv r hins
    exact Option.noConfusion hins
  | succ f ih =>
    intro n kl bv r hins
    match n with
    | .leaf k v =>
      simp only [insertF.eq_2] at hins
      by_cases hk : k = kl
      · subst hk
        rw [if_pos rfl] at hins
        obtain rfl : Node.leaf k (some bv) = r := Option.some.inj hins
        rw [Node.get.eq_1, if_pos rfl]
      · rw [if_neg hk] at hins
        by_cases hks : k = []
        · subst hks
          rw [if_pos rfl] at hins
          exact ih _ _ _ _ hins
        · rw [if_neg hks] at hins
          by_cases hkls : kl = []
          · subst hkls
            rw [if_pos rfl] at hins
            cases k with
            | nil => exact absurd rfl hks
            | cons k0 kt =>
              cases f with
              | zero => exact Option.noConfusion hins
              | succ f2 =>
                rw [insertF.eq_7, empty16_getElem] at hins
                by_cases hlt : k0 < 16
                · rw [if_pos hlt] at hins
                  obtain rfl : Node.branch (empty16.set k0 (some (Node.leaf kt v)))
                      (some bv) = r := Option.some.inj hins
                  rw [Node.get.eq_4]
                · rw [if_neg hlt] at hins
                  exact Option.noConfusion hins
          · rw [if_neg hkls] at hins
            by_cases hlpos : 0 < prefixLength k kl
            · rw [if_pos hlpos] at hins
              obtain ⟨m, hm, rfl⟩ := Option.map_eq_some'.mp hins
              have hlle : prefixLength k kl ≤ k.length := prefixLength_le_left k kl
              have htake : k.take (prefixLength k kl) = kl.take (prefixLength k kl) :=
                prefixLength_take k kl
              have hlenkl : (k.take (prefixLength k kl)).length = prefixLength k kl := by
                rw [List.length_take]
                omega
              rw [Node.get.eq_2, if_pos (by rw [hlenkl, htake]), hlenkl]
              exact ih _ _ _ _ hm
            · rw [if_neg hlpos] at hins
              obtain ⟨b1, hb1, hr⟩ := Option.bind_eq_some.mp hins
              exact ih _ _ _ _ hr
    | .ext k child =>
      simp only [insertF.eq_4] at hins
      by_cases hk : k = []
      · subst hk
        rw [if_pos rfl] at hins
        exact ih _ _ _ _ hins
      · rw [if_neg hk] at hins
        by_cases hkls : kl = []
        · subst hkls
          rw [if_pos rfl] at hins
          cases k with
          | nil => exact absurd rfl hk
          | cons k0 kt =>
            cases f with
            | zero => exact Option.noConfusion hins
            | succ f2 =>
              rw [insertF.eq_9] at hins
              have h16 : empty16.length = 16 := by simp [empty16]
              by_cases hlt : k0 < 16
              · rw [if_pos (by rw [h16]; exact hlt)] at hins
                obtain rfl : Node.branch
                    (empty16.set k0 (some (extTail 1 (k0 :: kt) child))) (some bv) = r :=
                  Option.some.inj hins
                rw [Node.get.eq_4]
              · rw [if_neg (by rw [h16]; exact hlt)] at hins
                exact Option.noConfusion hins
        · rw [if_neg hkls] at hins
          by_cases hlpos : 0 < prefixLength k kl
          · rw [if_pos hlpos] at hins
            obtain ⟨m, hm, rfl⟩ := Option.map_eq_some'.mp hins
            have hlle : prefixLength k kl ≤ k.length := prefixLength_le_left k kl
            have htake : k.take (prefixLength k kl) = kl.take (prefixLength k kl) :=
              prefixLength_take k kl
            have hlenkl : (k.take (prefixLength k kl)).length = prefixLength k kl := by
              rw [List.length_take]
              omega
            rw [Node.get.eq_2, if_pos (by rw [hlenkl, htake]), hlenkl]
            exact ih _ _ _ _ hm
          · rw [if_neg hlpos] at hins
            obtain ⟨b1, hb1, hr⟩ := Option.bind_eq_some.mp hins
            exact ih _ _ _ _ hr
    | .branch ns v =>
      cases kl with
      | nil =>
        rw [insertF.eq_6] at hins
        obtain rfl : Node.branch ns (some bv) = r := Option.some.inj hins
        rw [Node.get.eq_4]
      | cons hh tt =>
        rw [insertF.eq_7] at hins
        cases hslot : ns[hh]? with
        | none =>
          rw [hslot] at hins
          exact Option.noConfusion hins
        | some o =>
          have hlt : hh < ns.length := (List.getElem?_eq_some.mp hslot).1
          cases o with
          | none =>
            rw [hslot] at hins
            obtain rfl : Node.branch (ns.set hh (some (Node.leaf tt (some bv)))) v = r :=
              Option.some.inj hins
            rw [Node.get.eq_5, slotsGet_eq, List.getElem?_set_self hlt]
            show (Node.leaf tt (some bv)).get tt = some (some bv)
            rw [Node.get.eq_1, if_pos rfl]
          | some m =>
            rw [hslot] at hins
            obtain ⟨m2, hm2, rfl⟩ := Option.map_eq_some'.mp hins
            rw [Node.get.eq_5, slotsGet_eq, List.getElem?_set_self hlt]
            show m2.get tt = some (some bv)
            exact ih _ _ _ _ hm2

/-- C1 counterexample.  The claim quantifies over every leaf, including a
leaf whose value is the absent `None`.  Inserting `Leaf((), None)` into
`Leaf((0,), b"\x01")` succeeds and produces a branch whose value is `None`,
so `get` on the inserted key `()` raises `KeyError` instead of returning
the leaf's value `None`: `get(insert(n, l), l.key) == l.value` fails. -/
theorem insert_then_get_counterexample :
    insertF 3 (Node.leaf [0] (some [1])) (Node.leaf [] none) =
      some (Node.branch (empty16.set 0 (some (Node.leaf [] (some [1])))) none) ∧
    Node.get (Node.branch (empty16.set 0 (some (Node.leaf [] (some [1])))) none) [] = none ∧
    (none : Option Val) ≠ some none :=
  ⟨rfl, rfl, by simp⟩

/-- C1 (amended): for every node `n` (including the absent node, covered
by `absent_insert_identity`) and every leaf `l` whose value is present,
after a successful `insert(n, l)` the lookup of `l.key` returns
`l.value`.  (For a leaf with an absent value the lookup can instead raise
`KeyError` — see the counterexample.) -/
theorem insert_then_get (f : Nat) (n : Node) (kl : Nibbles) (bv : Bytes) (r : Node)
    (hins : insertF f n (Node.leaf kl (some bv)) = some r) :
    r.get kl = some (some bv) :=
  insert_get_aux f n kl bv r hins

/-- C1 witness: inserting key `[3]` into a shallow leaf and reading it
back. -/
theorem insert_then_get_witness :
    Node.get (Node.branch (empty16.set 3 (some (Node.leaf [] (some [7]))))
      (some [2])) [3] = some (some [7]) :=
  insert_then_get 5 (Node.leaf [] (some [2])) [3] [7] _ rfl

/-! ### Extension invariant (claim C3) -/

/-- `extOKSSlots` of a cons in terms of `extOKSO`. -/
theorem extOKSSlots_cons (y : Option Node) (rest : List (Option Node)) :
    extOKSSlots (y :: rest) = (extOKSO y && extOKSSlots rest) := by
  cases y <;> simp [extOKSSlots, extOKSO]

/-- Each occupied slot of an invariant-satisfying slot list satisfies the
invariant. -/
theorem extOKSSlots_slot :
    ∀ (ns : List (Option Node)) (h : Nat) (o : Option Node),
      extOKSSlots ns = true → ns[h]? = some o → extOKSO o = true := by
  intro ns
  induction ns with
  | nil => intro h o _ hm; simp at hm
  | cons y rest ih =>
    intro h o hok hm
    rw [extOKSSlots_cons, Bool.and_eq_true] at hok
    cases h with
    | zero =>
      simp only [List.getElem?_cons_zero, Option.some.injEq] at hm
      exact hm ▸ hok.1
    | succ i =>
      simp only [List.getElem?_cons_succ] at hm
      exact ih i o hok.2 hm

/-- Setting an invariant-satisfying slot preserves `extOKSSlots`. -/
theorem extOKSSlots_set :
    ∀ (ns : List (Option Node)) (h : Nat) (x : Option Node),
      extOKSSlots ns = true → extOKSO x = true → extOKSSlots (ns.set h x) = true := by
  intro ns
  induction ns with
  | nil => intro h x _ _; simp [extOKSSlots]
  | cons y rest ih =>
    intro h x hok hx
    rw [extOKSSlots_cons, Bool.and_eq_true] at hok
    cases h with
    | zero =>
      simp only [List.set_cons_zero]
      rw [extOKSSlots_cons, Bool.and_eq_true]
      exact ⟨hx, hok.2⟩
    | succ i =>
      simp only [List.set_cons_succ]
      rw [extOKSSlots_cons, Bool.and_eq_true]
      exact ⟨hok.1, ih i x hok.2 hx⟩

/-- The fresh 16 slots satisfy the invariant. -/
theorem extOKSSlots_empty16 : extOKSSlots empty16 = true := rfl

/-- The strengthened invariant of an extension, unfolded. -/
theorem extOKS_ext_iff (k : Nibbles) (child : Node) :
    extOKS (Node.ext k child) = true ↔
      (k ≠ [] ∧ child.isBranch = true ∧ extOKS child = true) := by
  rw [extOKS.eq_2]
  simp [List.isEmpty_iff, and_assoc]

/-- The invariant passes to extension tails. -/
theorem extOKS_extTail (l : Nat) (k : Nibbles) (child : Node)
    (hok : extOKS (Node.ext k child) = true) :
    extOKS (extTail l k child) = true := by
  obtain ⟨-, hbr, hchild⟩ := (extOKS_ext_iff k child).mp hok
  unfold extTail
  split
  · exact hchild
  · rename_i hne
    exact (extOKS_ext_iff _ _).mpr ⟨hne, hbr, hchild⟩

/-- Dropping the common prefix leaves sequences with no common prefix. -/
theorem prefixLength_drop :
    ∀ a b : Nibbles,
      prefixLength (a.drop (prefixLength a b)) (b.drop (prefixLength a b)) = 0 := by
  intro a
  induction a with
  | nil => intro b; simp [prefixLength]
  | cons x xs ih =>
    intro b
    cases b with
    | nil => simp [prefixLength]
    | cons y ys =>
      by_cases hxy : x = y
      · subst hxy
        have hp : prefixLength (x :: xs) (x :: ys) = prefixLength xs ys + 1 := by
          simp [prefixLength]
        rw [hp, List.drop_succ_cons, List.drop_succ_cons]
        exact ih ys
      · have hp : prefixLength (x :: xs) (y :: ys) = 0 := by
          simp [prefixLength, hxy]
        rw [hp, List.drop_zero, List.drop_zero, hp]

/-- Every successful insert into a branch yields a branch. -/
theorem insert_branch_shape :
    ∀ (f : Nat) (ns : List (Option Node)) (v : Val) (arg r : Node),
      insertF f (Node.branch ns v) arg = some r → r.isBranch = true := by
  intro f ns v arg r hins
  cases f with
  | zero => exact Option.noConfusion hins
  | succ f =>
    match arg with
    | .leaf [] v2 =>
      rw [insertF.eq_6] at hins
      obtain rfl := Option.some.inj hins
      rfl
    | .leaf (h :: t) v2 =>
      rw [insertF.eq_7] at hins
      cases hslot : ns[h]? with
      | none => rw [hslot] at hins; exact Option.noConfusion hins
      | some o =>
        cases o with
        | none =>
          rw [hslot] at hins
          obtain rfl := Option.some.inj hins
          rfl
        | some m =>
          rw [hslot] at hins
          obtain ⟨m2, hm2, rfl⟩ := Option.map_eq_some'.mp hins
          rfl
    | .ext [] n2 =>
      rw [insertF.eq_8] at hins
      exact Option.noConfusion hins
    | .ext (h :: t) n2 =>
      rw [insertF.eq_9] at hins
      split at hins
      · obtain rfl := Option.some.inj hins
        rfl
      · exact Option.noConfusion hins
    | .branch ns2 v2 => exact Option.noConfusion hins

/-- Merging two leaves with no shared prefix and distinct keys yields a
branch. -/
theorem insert_leaf_leaf_shape :
    ∀ (f : Nat) (a : Nibbles) (u : Val) (b : Nibbles) (w : Val) (r : Node),
      insertF f (Node.leaf a u) (Node.leaf b w) = some r →
      a ≠ b → prefixLength a b = 0 → r.isBranch = true := by
  intro f a u b w r hins hne hpl
  cases f with
  | zero => exact Option.noConfusion hins
  | succ f =>
    simp only [insertF.eq_2] at hins
    rw [if_neg hne] at hins
    by_cases has : a = []
    · subst has
      rw [if_pos rfl] at hins
      exact insert_branch_shape f _ _ _ _ hins
    · rw [if_neg has] at hins
      by_cases hbs : b = []
      · subst hbs
        rw [if_pos rfl] at hins
        exact insert_branch_shape f _ _ _ _ hins
      · rw [if_neg hbs, if_neg (by rw [hpl]; simp)] at hins
        obtain ⟨b1, hb1, hr⟩ := Option.bind_eq_some.mp hins
        have hb1br := insert_branch_shape f empty16 none _ b1 hb1
        cases b1 with
        | leaf k v => exact Bool.noConfusion hb1br
        | ext k n => exact Bool.noConfusion hb1br
        | branch ns2 v2 => exact insert_branch_shape f ns2 v2 _ r hr

/-- Merging a leaf into a non-shallow extension sharing no prefix yields a
branch. -/
theorem insert_ext_leaf_shape :
    ∀ (f : Nat) (a : Nibbles) (c : Node) (b : Nibbles) (w : Val) (r : Node),
      insertF f (Node.ext a c) (Node.leaf b w) = some r →
      a ≠ [] → prefixLength a b = 0 → r.isBranch = true := by
  intro f a c b w r hins hne hpl
  cases f with
  | zero => exact Option.noConfusion hins
  | succ f =>
    simp only [insertF.eq_4] at hins
    rw [if_neg hne] at hins
    by_cases hbs : b = []
    · subst hbs
      rw [if_pos rfl] at hins
      exact insert_branch_shape f _ _ _ _ hins
    · rw [if_neg hbs, if_neg (by rw [hpl]; simp)] at hins
      obtain ⟨b1, hb1, hr⟩ := Option.bind_eq_some.mp hins
      have hb1br := insert_branch_shape f empty16 none _ b1 hb1
      cases b1 with
      | leaf k v => exact Bool.noConfusion hb1br
      | ext k n => exact Bool.noConfusion hb1br
      | branch ns2 v2 => exact insert_branch_shape f ns2 v2 _ r hr

/-- A non-empty take is non-empty. -/
theorem take_ne_nil {k : Nibbles} {l : Nat} (hl : 0 < l) (hle : l ≤ k.length) :
    k.take l ≠ [] := by
  intro he
  have := congrArg List.length he
  rw [List.length_take] at this
  simp only [List.length_nil] at this
  omega

/-- Inserting a leaf preserves the strengthened extension invariant: in
the result every extension has a non-empty key and a branch child. -/
theorem insert_extOKS :
    ∀ (f : Nat) (n : Node) (kl : Nibbles) (vl : Val) (r : Node),
      extOKS n = true →
      insertF f n (Node.leaf kl vl) = some r →
      extOKS r = true := by
  intro f
  induction f with
  | zero =>
    intro n kl vl r _ hins
    exact Option.noConfusion hins
  | succ f ih =>
    intro n kl vl r hok hins
    match n with
    | .leaf k v =>
      simp only [insertF.eq_2] at hins
      by_cases hk : k = kl
      · subst hk
        rw [if_pos rfl] at hins
        obtain rfl : Node.leaf k vl = r := Option.some.inj hins
        rfl
      · rw [if_neg hk] at hins
        by_cases hks : k = []
        · subst hks
          rw [if_pos rfl] at hins
          exact ih _ _ _ _ (by rw [extOKS.eq_3]; exact extOKSSlots_empty16) hins
        · rw [if_neg hks] at hins
          by_cases hkls : kl = []
          · subst hkls
            rw [if_pos rfl] at hins
            cases k with
            | nil => exact absurd rfl hks
            | cons k0 kt =>
              cases f with
              | zero => exact Option.noConfusion hins
              | succ f2 =>
                rw [insertF.eq_7, empty16_getElem] at hins
                by_cases hlt : k0 < 16
                · rw [if_pos hlt] at hins
                  obtain rfl : Node.branch (empty16.set k0 (some (Node.leaf kt v)))
                      vl = r := Option.some.inj hins
                  rw [extOKS.eq_3]
                  exact extOKSSlots_set empty16 k0 _ extOKSSlots_empty16 rfl
                · rw [if_neg hlt] at hins
                  exact Option.noConfusion hins
          · rw [if_neg hkls] at hins
            by_cases hlpos : 0 < prefixLength k kl
            · rw [if_pos hlpos] at hins
              obtain ⟨m, hm, rfl⟩ := Option.map_eq_some'.mp hins
              have hlle : prefixLength k kl ≤ k.length := prefixLength_le_left k kl
              have htake : k.take (prefixLength k kl) = kl.take (prefixLength k kl) :=
                prefixLength_take k kl
              have hdropne : k.drop (prefixLength k kl) ≠ kl.drop (prefixLength k kl) :=
                fun hd => hk (eq_of_take_drop htake hd)
              have hbr := insert_leaf_leaf_shape f _ v _ vl m hm hdropne
                (prefixLength_drop k kl)
              refine (extOKS_ext_iff _ _).mpr
                ⟨take_ne_nil hlpos hlle, hbr, ih _ _ _ _ (extOKS.eq_1 _ _) hm⟩
            · rw [if_neg hlpos] at hins
              obtain ⟨b1, hb1, hr⟩ := Option.bind_eq_some.mp hins
              exact ih _ _ _ _
                (ih _ _ _ _ (by rw [extOKS.eq_3]; exact extOKSSlots_empty16) hb1) hr
    | .ext k child =>
      obtain ⟨hkne, hbr, hcok⟩ := (extOKS_ext_iff k child).mp hok
      simp only [insertF.eq_4] at hins
      rw [if_neg hkne] at hins
      by_cases hkls : kl = []
      · subst hkls
        rw [if_pos rfl] at hins
        cases k with
        | nil => exact absurd rfl hkne
        | cons k0 kt =>
          cases f with
          | zero => exact Option.noConfusion hins
          | succ f2 =>
            rw [insertF.eq_9] at hins
            have h16 : empty16.length = 16 := by simp [empty16]
            by_cases hlt : k0 < 16
            · rw [if_pos (by rw [h16]; exact hlt)] at hins
              obtain rfl : Node.branch
                  (empty16.set k0 (some (extTail 1 (k0 :: kt) child))) vl = r :=
                Option.some.inj hins
              rw [extOKS.eq_3]
              exact extOKSSlots_set empty16 k0 _ extOKSSlots_empty16
                (by simp only [extOKSO]; exact extOKS_extTail 1 _ child hok)
            · rw [if_neg (by rw [h16]; exact hlt)] at hins
              exact Option.noConfusion hins
      · rw [if_neg hkls] at hins
        by_cases hlpos : 0 < prefixLength k kl
        · rw [if_pos hlpos] at hins
          obtain ⟨m, hm, rfl⟩ := Option.map_eq_some'.mp hins
          have hlle : prefixLength k kl ≤ k.length := prefixLength_le_left k kl
          have hokt : extOKS (extTail (prefixLength k kl) k child) = true :=
            extOKS_extTail _ k child hok
          have hbr : m.isBranch = true := by
            have hpd := prefixLength_drop k kl
            unfold extTail at hm
            split at hm
            · cases child with
              | leaf a b => exact Bool.noConfusion hbr
              | ext a b => exact Bool.noConfusion hbr
              | branch ns2 v2 => exact insert_branch_shape f ns2 v2 _ m hm
            · rename_i hdne
              exact insert_ext_leaf_shape f _ child _ vl m hm hdne hpd
          refine (extOKS_ext_iff _ _).mpr
            ⟨take_ne_nil hlpos hlle, hbr, ih _ _ _ _ hokt hm⟩
        · rw [if_neg hlpos] at hins
          obtain ⟨b1, hb1, hr⟩ := Option.bind_eq_some.mp hins
          cases k with
          | nil => exact absurd rfl hkne
          | cons k0 kt =>
            cases f with
            | zero => exact Option.noConfusion hb1
            | succ f2 =>
              rw [insertF.eq_9] at hb1
              have h16 : empty16.length = 16 := by simp [empty16]
              by_cases hlt : k0 < 16
              · rw [if_pos (by rw [h16]; exact hlt)] at hb1
                obtain rfl : Node.branch
                    (empty16.set k0 (some (extTail 1 (k0 :: kt) child))) none = b1 :=
                  Option.some.inj hb1
                have hb1ok : extOKS (Node.branch
                    (empty16.set k0 (some (extTail 1 (k0 :: kt) child))) none) = true := by
                  rw [extOKS.eq_3]
                  exact extOKSSlots_set empty16 k0 _ extOKSSlots_empty16
                    (by simp only [extOKSO]; exact extOKS_extTail 1 _ child hok)
                exact ih _ _ _ _ hb1ok hr
              · rw [if_neg (by rw [h16]; exact hlt)] at hb1
                exact Option.noConfusion hb1
    | .branch ns v =>
      have hslots : extOKSSlots ns = true := by
        rw [extOKS.eq_3] at hok
        exact hok
      cases kl with
      | nil =>
        rw [insertF.eq_6] at hins
        obtain rfl : Node.branch ns vl = r := Option.some.inj hins
        rw [extOKS.eq_3]
        exact hslots
      | cons hh tt =>
        rw [insertF.eq_7] at hins
        cases hslot : ns[hh]? with
        | none =>
          rw [hslot] at hins
          exact Option.noConfusion hins
        | some o =>
          cases o with
          | none =>
            rw [hslot] at hins
            obtain rfl : Node.branch (ns.set hh (some (Node.leaf tt vl))) v = r :=
              Option.some.inj hins
            rw [extOKS.eq_3]
            exact extOKSSlots_set ns hh _ hslots rfl
          | some m =>
            rw [hslot] at hins
            obtain ⟨m2, hm2, rfl⟩ := Option.map_eq_some'.mp hins
            have hmok : extOKS m = true := by
              have := extOKSSlots_slot ns hh (some m) hslots hslot
              simpa [extOKSO] using this
            rw [extOKS.eq_3]
            exact extOKSSlots_set ns hh _ hslots
              (by simp only [extOKSO]; exact ih _ _ _ _ hmok hm2)

/-- The strengthened invariant implies the claim-level invariant, jointly
for nodes and slot lists by strong induction on size. -/
theorem extOKS_imp_extOK_bundle :
    ∀ s : Nat,
      (∀ n : Node, nodeSize n ≤ s → extOKS n = true → extOK n = true) ∧
      (∀ ns : List (Option Node), slotsSize ns ≤ s →
        extOKSSlots ns = true → extOKSlots ns = true) := by
  intro s
  induction s with
  | zero =>
    constructor
    · intro n hsize _
      exact absurd (Nat.le_trans (nodeSize_pos n) hsize) (by omega)
    · intro ns hsize _
      cases ns with
      | nil => rfl
      | cons y rest =>
        cases y with
        | none => simp [slotsSize] at hsize
        | some m => simp [slotsSize] at hsize
  | succ s ih =>
    constructor
    · intro n hsize hok
      match n with
      | .leaf k v => rfl
      | .ext k child =>
        obtain ⟨hkne, hbr, hcok⟩ := (extOKS_ext_iff k child).mp hok
        have hchild : nodeSize child ≤ s := by
          simp only [nodeSize] at hsize
          omega
        rw [extOK.eq_2]
        have hlb : child.isLeafOrBranch = true := by
          cases child with
          | leaf a b => rfl
          | ext a b => exact Bool.noConfusion hbr
          | branch a b => rfl
        rw [ih.1 child hchild hcok, hlb]
        simp [List.isEmpty_iff, hkne]
      | .branch ns v =>
        have hns : slotsSize ns ≤ s := by
          simp only [nodeSize] at hsize
          omega
        rw [extOK.eq_3]
        rw [extOKS.eq_3] at hok
        exact ih.2 ns hns hok
    · intro ns hsize hok
      cases ns with
      | nil => rfl
      | cons y rest =>
        cases y with
        | none =>
          simp only [slotsSize] at hsize
          simp only [extOKSSlots] at hok
          simp only [extOKSlots]
          exact ih.2 rest (by omega) hok
        | some m =>
          simp only [slotsSize] at hsize
          simp only [extOKSSlots, Bool.and_eq_true] at hok
          simp only [extOKSlots, Bool.and_eq_true]
          exact ⟨ih.1 m (by omega) hok.1, ih.2 rest (by omega) hok.2⟩

/-- Trees produced by insert sequences satisfy the strengthened extension
invariant. -/
theorem built_extOKS : ∀ t : Option Node, Built t → ∀ n, t = some n → extOKS n = true := by
  intro t hb
  induction hb with
  | nil => intro n hn; exact Option.noConfusion hn
  | start k v =>
    intro n hn
    obtain rfl := Option.some.inj hn
    rfl
  | step t2 f k v r _ hins ih =>
    intro n hn
    obtain rfl := Option.some.inj hn
    exact insert_extOKS f t2 k v _ (ih t2 rfl) hins

/-- C3.  Every tree produced by a sequence of insert operations (starting
from any leaf or from the absent node) has only extensions with non-empty
keys and `Leaf`-or-`Branch` children; a child is never another extension
and — by construction of the embedding — never absent. -/
theorem built_extension_invariant :
    ∀ n : Node, Built (some n) → extOK n = true := by
  intro n hb
  exact (extOKS_imp_extOK_bundle (nodeSize n)).1 n (Nat.le_refl _)
    (built_extOKS (some n) hb n rfl)

/-- C3 witness: inserting `[1,3]` into the leaf `[1,2]` yields an
extension over the shared nibble above a two-slot branch, which satisfies
the invariant. -/
theorem built_extension_invariant_witness :
    extOK (Node.ext [1] (Node.branch
      ((empty16.set 2 (some (Node.leaf [] (some [5])))).set 3
        (some (Node.leaf [] (some [6])))) none)) = true :=
  built_extension_invariant _
    (Built.step (Node.leaf [1, 2] (some [5])) 9 [1, 3] (some [6]) _
      (Built.start [1, 2] (some [5])) rfl)

/-! ### Size and length invariants (claim C6) -/

/-- In a value-complete tree every lookup that succeeds returns a present
value. -/
theorem vp_get :
    ∀ (s : Nat) (n : Node), nodeSize n ≤ s → valuesPresent n = true →
      ∀ (k : Nibbles) (w : Val), n.get k = some w → w.isSome = true := by
  intro s
  induction s with
  | zero =>
    intro n hs
    exact absurd (Nat.le_trans (nodeSize_pos n) hs) (by omega)
  | succ s ih =>
    intro n hs hvp k w hget
    match n, k with
    | .leaf kl v, k =>
      rw [Node.get.eq_1] at hget
      split at hget
      · obtain rfl := Option.some.inj hget
        rw [valuesPresent.eq_1] at hvp
        exact hvp
      · exact Option.noConfusion hget
    | .ext kl child, k =>
      rw [Node.get.eq_2] at hget
      split at hget
      · rw [valuesPresent.eq_2] at hvp
        exact ih child (by simp only [nodeSize] at hs; omega) hvp _ w hget
      · exact Option.noConfusion hget
    | .branch ns v, [] =>
      cases v with
      | none => exact Option.noConfusion (Node.get.eq_3 ns ▸ hget)
      | some b =>
        rw [Node.get.eq_4] at hget
        obtain rfl := Option.some.inj hget
        rfl
    | .branch ns v, h :: t =>
      rw [Node.get.eq_5, slotsGet_eq] at hget
      cases hslot : ns[h]? with
      | none => rw [hslot] at hget; exact Option.noConfusion hget
      | some o =>
        cases o with
        | none => rw [hslot] at hget; exact Option.noConfusion hget
        | some m =>
          rw [hslot] at hget
          have hvm : valuesPresent m = true := by
            rw [valuesPresent.eq_3] at hvp
            have := slotsVP_slot ns h (some m) hvp hslot
            simpa [vpO] using this
          have hsm : nodeSize m ≤ s := by
            have := nodeSize_slot ns h m hslot
            simp only [nodeSize] at hs
            omega
          exact ih m hsm hvm t w hget

/-- `trieLen` agrees with `optLen`. -/
theorem trieLen_eq_optLen (t : Option Node) : trieLen t = optLen t := by
  cases t <;> rfl

/-- `bytesToNibbles` is injective on genuine byte strings. -/
theorem bytesToNibbles_inj (a b : Bytes)
    (ha : ∀ x ∈ a, x < 256) (hb : ∀ x ∈ b, x < 256)
    (heq : bytesToNibbles a = bytesToNibbles b) : a = b := by
  have h1 := bytes_nibbles_roundtrip_go a ha
  have h2 := bytes_nibbles_roundtrip_go b hb
  rw [heq, h2] at h1
  exact (Option.some.inj h1).symm

/-- One facade `set` call with a fresh key extends the abstraction by that
key. -/
theorem trieInv_set (f : Nat) (t : Option Node) (key v : Bytes) (S : List Nibbles)
    (hi : TrieInv t S) (hfresh : bytesToNibbles key ∉ S)
    (n2 : Node) (hres : trieSet f t key v = some n2) :
    TrieInv (some n2) (bytesToNibbles key :: S) := by
  obtain ⟨hvp, hlen, hnd, hmem⟩ := hi
  cases t with
  | none =>
    obtain rfl : Node.leaf (bytesToNibbles key) (some v) = n2 := Option.some.inj hres
    have hS : S = [] := List.length_eq_zero.mp (by simpa [optLen] using hlen.symm)
    subst hS
    refine ⟨?_, ?_, by simp, ?_⟩
    · simp only [vpO]
      rw [valuesPresent.eq_1]
      rfl
    · simp only [optLen]
      rw [Node.len.eq_1]
      rfl
    · intro κ
      simp only [optGet]
      rw [Node.get.eq_1]
      by_cases hκ : bytesToNibbles key = κ
      · subst hκ
        simp
      · rw [if_neg hκ]
        simp only [Option.isSome_none, Bool.false_eq_true, false_iff, List.mem_singleton]
        exact fun h => hκ h.symm
  | some n =>
    have hres2 : insertF f n (Node.leaf (bytesToNibbles key) (some v)) = some n2 := hres
    obtain ⟨hvp2, hget2, hpres2, hlen2⟩ := insertSpecAux f n (bytesToNibbles key) v n2
      (by simpa [vpO] using hvp) hres2
    have hw : (n.get (bytesToNibbles key)).isSome = false := by
      by_cases hio : (n.get (bytesToNibbles key)).isSome = true
      · exact absurd ((hmem (bytesToNibbles key)).mp hio) hfresh
      · simpa using hio
    refine ⟨by simpa [vpO] using hvp2, ?_, List.nodup_cons.mpr ⟨hfresh, hnd⟩, ?_⟩
    · simp only [optLen] at hlen ⊢
      rw [hw] at hlen2
      simp only [Bool.false_eq_true, if_false] at hlen2
      simp only [List.length_cons]
      omega
    · intro κ
      simp only [optGet]
      by_cases hκ : κ = bytesToNibbles key
      · subst hκ
        rw [hget2]
        simp
      · rw [hpres2 κ hκ]
        have h1 := hmem κ
        simp only [optGet] at h1
        rw [h1]
        simp [hκ]

/-- Iterated fresh `set` calls build the abstraction keylist. -/
theorem trieInv_setAll :
    ∀ (pairs : List (Bytes × Bytes)) (f : Nat) (t t2 : Option Node) (S : List Nibbles),
      TrieInv t S →
      (pairs.map (fun p => bytesToNibbles p.1)).Nodup →
      (∀ p ∈ pairs, bytesToNibbles p.1 ∉ S) →
      setAll f t pairs = some t2 →
      ∃ S2, TrieInv t2 S2 ∧ S2.length = S.length + pairs.length ∧
        (∀ κ, κ ∈ S2 ↔ (κ ∈ S ∨ κ ∈ pairs.map (fun p => bytesToNibbles p.1))) := by
  intro pairs
  induction pairs with
  | nil =>
    intro f t t2 S hi _ _ hres
    obtain rfl : t = t2 := Option.some.inj hres
    exact ⟨S, hi, by simp, fun κ => by simp⟩
  | cons p rest ih =>
    intro f t t2 S hi hnd hfresh hres
    simp only [setAll] at hres
    cases hset : trieSet f t p.1 p.2 with
    | none => rw [hset] at hres; exact Option.noConfusion hres
    | some n2 =>
      rw [hset] at hres
      have hi2 := trieInv_set f t p.1 p.2 S hi (hfresh p (by simp)) n2 hset
      simp only [List.map_cons, List.nodup_cons] at hnd
      have hfresh2 : ∀ q ∈ rest, bytesToNibbles q.1 ∉ bytesToNibbles p.1 :: S := by
        intro q hq hmem2
        cases List.mem_cons.mp hmem2 with
        | inl h => exact hnd.1 (h ▸ List.mem_map.mpr ⟨q, hq, rfl⟩)
        | inr h => exact hfresh q (by simp [hq]) h
      obtain ⟨S2, hi3, hlen3, hmem3⟩ := ih f (some n2) t2 _ hi2 hnd.2 hfresh2 hres
      refine ⟨S2, hi3, by simp only [List.length_cons] at hlen3 ⊢; omega, ?_⟩
      intro κ
      rw [hmem3 κ]
      simp only [List.mem_cons, List.map_cons]
      constructor
      · rintro (h | h)
        · rcases h with h | h
          · exact Or.inr (Or.inl h)
          · exact Or.inl h
        · exact Or.inr (Or.inr h)
      · rintro (h | h)
        · exact Or.inl (Or.inr h)
        · rcases h with h | h
          · exact Or.inl (Or.inl h)
          · exact Or.inr h

/-- Deleting every abstraction key succeeds and empties the trie. -/
theorem trieInv_delAll :
    ∀ (keys : List Bytes) (t : Option Node) (S : List Nibbles),
      TrieInv t S →
      (keys.map bytesToNibbles).Nodup →
      (∀ κ, κ ∈ S ↔ κ ∈ keys.map bytesToNibbles) →
      ∃ t2, delAll t keys = some t2 ∧ optLen t2 = 0 := by
  intro keys
  induction keys with
  | nil =>
    intro t S hi _ hiff
    obtain ⟨hvp, hlen, hnd, hmem⟩ := hi
    have hS : S = [] := List.eq_nil_iff_forall_not_mem.mpr (fun κ hκ => by
      simpa using (hiff κ).mp hκ)
    subst hS
    exact ⟨t, rfl, by simpa using hlen⟩
  | cons key rest ih =>
    intro t S hi hnd hiff
    obtain ⟨hvp, hlen, hnd2, hmem⟩ := hi
    have hin : bytesToNibbles key ∈ S := (hiff _).mpr (by simp)
    have hsome := (hmem _).mpr hin
    cases t with
    | none => simp [optGet] at hsome
    | some n =>
      simp only [optGet] at hsome
      obtain ⟨w, hw⟩ := Option.isSome_iff_exists.mp hsome
      have hws : w.isSome = true :=
        vp_get (nodeSize n) n (Nat.le_refl _) (by simpa [vpO] using hvp) _ w hw
      have hds := deleteSpecAux (nodeSize n) n (bytesToNibbles key) (Nat.le_refl _)
      cases hdel : n.delete (bytesToNibbles key) with
      | none =>
        rw [hds.1.mpr hdel] at hw
        exact Option.noConfusion hw
      | some r =>
        obtain ⟨hD1, hD3, ⟨w2, hw2, hlend⟩, hD5⟩ := hds.2 r hdel
        obtain rfl : w = w2 := Option.some.inj (hw.symm.trans hw2)
        have hnext : TrieInv r (S.erase (bytesToNibbles key)) := by
          refine ⟨hD5 (by simpa [vpO] using hvp), ?_, hnd2.erase _, ?_⟩
          · rw [List.length_erase_of_mem hin]
            simp only [optLen] at hlen
            rw [hws] at hlend
            simp only [if_true] at hlend
            omega
          · intro κ
            by_cases hκ : κ = bytesToNibbles key
            · subst hκ
              rw [hD1]
              simp only [Option.isSome_none, Bool.false_eq_true, false_iff]
              exact hnd2.not_mem_erase
            · rw [hD3 κ hκ]
              have h1 := hmem κ
              simp only [optGet] at h1
              rw [h1, List.Nodup.mem_erase_iff hnd2]
              simp [hκ]
        have hiff2 : ∀ κ, κ ∈ S.erase (bytesToNibbles key) ↔ κ ∈ rest.map bytesToNibbles := by
          intro κ
          rw [List.Nodup.mem_erase_iff hnd2, hiff κ]
          simp only [List.map_cons, List.mem_cons]
          constructor
          · rintro ⟨hne, (h | h)⟩
            · exact absurd h hne
            · exact h
          · intro h
            refine ⟨?_, Or.inr h⟩
            intro he
            subst he
            simp only [List.map_cons, List.nodup_cons] at hnd
            exact hnd.1 h
        have hndrest : (rest.map bytesToNibbles).Nodup := by
          simp only [List.map_cons, List.nodup_cons] at hnd
          exact hnd.2
        obtain ⟨t2, hdall, hlen0⟩ := ih r _ hnext hndrest hiff2
        refine ⟨t2, ?_, hlen0⟩
        simp only [delAll, trieDel]
        rw [hdel]
        exact hdall

/-- C6.  Starting from a freshly constructed empty trie (absent root),
after N set calls with pairwise-distinct byte keys `len(trie) == N`, and
subsequently deleting all N keys succeeds and leaves `len(trie) == 0`. -/
theorem set_all_delete_all_len (f : Nat) (pairs : List (Bytes × Bytes)) (t : Option Node)
    (hvalid : ∀ p ∈ pairs, ∀ b ∈ p.1, b < 256)
    (hnd : (pairs.map Prod.fst).Nodup)
    (hset : setAll f none pairs = some t) :
    trieLen t = pairs.length ∧
    ∃ t2, delAll t (pairs.map Prod.fst) = some t2 ∧ trieLen t2 = 0 := by
  have hndn : (pairs.map (fun p => bytesToNibbles p.1)).Nodup := by
    have heqm : pairs.map (fun p => bytesToNibbles p.1) =
        (pairs.map Prod.fst).map bytesToNibbles := by
      rw [List.map_map]
      rfl
    rw [heqm]
    refine List.Nodup.map_on ?_ hnd
    intro x hx y hy hxy
    exact bytesToNibbles_inj x y
      (by obtain ⟨p, hp, rfl⟩ := List.mem_map.mp hx; exact hvalid p hp)
      (by obtain ⟨q, hq, rfl⟩ := List.mem_map.mp hy; exact hvalid q hq) hxy
  have hinv0 : TrieInv none [] := by
    refine ⟨rfl, rfl, List.nodup_nil, ?_⟩
    intro κ
    simp [optGet]
  obtain ⟨S2, hinv2, hlen2, hmem2⟩ :=
    trieInv_setAll pairs f none t [] hinv0 hndn (by simp) hset
  have hlen : trieLen t = pairs.length := by
    rw [trieLen_eq_optLen, hinv2.2.1, hlen2]
    simp
  refine ⟨hlen, ?_⟩
  have hiff : ∀ κ, κ ∈ S2 ↔ κ ∈ (pairs.map Prod.fst).map bytesToNibbles := by
    intro κ
    rw [hmem2 κ, List.map_map]
    simp
  have hndb : ((pairs.map Prod.fst).map bytesToNibbles).Nodup := by
    have heqm : pairs.map (fun p => bytesToNibbles p.1) =
        (pairs.map Prod.fst).map bytesToNibbles := by
      rw [List.map_map]
      rfl
    rw [← heqm]
    exact hndn
  obtain ⟨t2, hdall, hlen0⟩ := trieInv_delAll (pairs.map Prod.fst) t S2 hinv2 hndb hiff
  exact ⟨t2, hdall, by rw [trieLen_eq_optLen]; exact hlen0⟩

/-- C6 witness: two distinct one-byte keys give length 2, and deleting
both gives length 0. -/
theorem set_all_delete_all_len_witness :
    trieLen (some (Node.ext [0] (Node.branch
      ((empty16.set 0 (some (Node.leaf [] (some [1])))).set 1
        (some (Node.leaf [] (some [2])))) none))) = 2 ∧
    ∃ t2, delAll (some (Node.ext [0] (Node.branch
      ((empty16.set 0 (some (Node.leaf [] (some [1])))).set 1
        (some (Node.leaf [] (some [2])))) none)))
      (([([0], [1]), ([1], [2])] : List (Bytes × Bytes)).map Prod.fst) = some t2 ∧
      trieLen t2 = 0 :=
  set_all_delete_all_len 9 [([0], [1]), ([1], [2])] _ (by decide) (by decide) rfl

/-! ### Totality of insertion: enough fuel always exists for valid trees -/

/-- `slotsKeys` of a cons in terms of `optKeys`. -/
theorem slotsKeys_cons (y : Option Node) (rest : List (Option Node)) :
    slotsKeys (y :: rest) = optKeys y + slotsKeys rest := by
  cases y <;> simp [slotsKeys, optKeys]

/-- Replacing a slot changes `slotsKeys` by the two slots' key totals. -/
theorem slotsKeys_set :
    ∀ (ns : List (Option Node)) (h : Nat) (o x : Option Node),
      ns[h]? = some o →
      slotsKeys (ns.set h x) + optKeys o = slotsKeys ns + optKeys x := by
  intro ns
  induction ns with
  | nil => intro h o x hm; simp at hm
  | cons y rest ih =>
    intro h o x hm
    cases h with
    | zero =>
      simp only [List.getElem?_cons_zero, Option.some.injEq] at hm
      subst hm
      simp only [List.set_cons_zero, slotsKeys_cons]
      omega
    | succ i =>
      simp only [List.getElem?_cons_succ] at hm
      simp only [List.set_cons_succ, slotsKeys_cons]
      have := ih i o x hm
      omega

/-- An occupied slot contributes its keys to `slotsKeys`. -/
theorem slotsKeys_slot :
    ∀ (ns : List (Option Node)) (h : Nat) (m : Node),
      ns[h]? = some (some m) → nodeKeys m ≤ slotsKeys ns := by
  intro ns
  induction ns with
  | nil => intro h m hm; simp at hm
  | cons y rest ih =>
    intro h m hm
    cases h with
    | zero =>
      simp only [List.getElem?_cons_zero, Option.some.injEq] at hm
      subst hm
      simp only [slotsKeys]
      omega
    | succ i =>
      simp only [List.getElem?_cons_succ] at hm
      have := ih i m hm
      rw [slotsKeys_cons]
      omega

/-- `validSlots` of a cons in terms of `validO`. -/
theorem validSlots_cons (y : Option Node) (rest : List (Option Node)) :
    validSlots (y :: rest) = (validO y && validSlots rest) := by
  cases y <;> simp [validSlots, validO]

/-- Every slot of a valid slot list is valid. -/
theorem validSlots_slot :
    ∀ (ns : List (Option Node)) (h : Nat) (o : Option Node),
      validSlots ns = true → ns[h]? = some o → validO o = true := by
  intro ns
  induction ns with
  | nil => intro h o _ hm; simp at hm
  | cons y rest ih =>
    intro h o hok hm
    rw [validSlots_cons, Bool.and_eq_true] at hok
    cases h with
    | zero =>
      simp only [List.getElem?_cons_zero, Option.some.injEq] at hm
      exact hm ▸ hok.1
    | succ i =>
      simp only [List.getElem?_cons_succ] at hm
      exact ih i o hok.2 hm

/-- Setting a valid slot preserves `validSlots`. -/
theorem validSlots_set :
    ∀ (ns : List (Option Node)) (h : Nat) (x : Option Node),
      validSlots ns = true → validO x = true →
      validSlots (ns.set h x) = true := by
  intro ns
  induction ns with
  | nil => intro h x _ _; simp [validSlots]
  | cons y rest ih =>
    intro h x hok hx
    rw [validSlots_cons, Bool.and_eq_true] at hok
    cases h with
    | zero =>
      simp only [List.set_cons_zero]
      rw [validSlots_cons, Bool.and_eq_true]
      exact ⟨hx, hok.2⟩
    | succ i =>
      simp only [List.set_cons_succ]
      rw [validSlots_cons, Bool.and_eq_true]
      exact ⟨hok.1, ih i x hok.2 hx⟩

/-- A fresh branch over `empty16` is valid. -/
theorem validNode_empty16 (v : Val) :
    validNode (Node.branch empty16 v) = true := by
  rfl

/-- Fresh slots store no keys. -/
theorem slotsKeys_empty16 : slotsKeys empty16 = 0 := rfl

/-- In-range keys stay in range after dropping a prefix. -/
theorem all_lt16_drop {k : Nibbles} (l : Nat)
    (hk : k.all (fun x => x < 16) = true) :
    (k.drop l).all (fun x => x < 16) = true := by
  rw [List.all_eq_true] at hk ⊢
  intro x hx
  exact hk x (List.mem_of_mem_drop hx)

/-- In-range keys stay in range after taking a prefix. -/
theorem all_lt16_take {k : Nibbles} (l : Nat)
    (hk : k.all (fun x => x < 16) = true) :
    (k.take l).all (fun x => x < 16) = true := by
  rw [List.all_eq_true] at hk ⊢
  intro x hx
  exact hk x (List.mem_of_mem_take hx)

/-- `extTail` of an extension with a valid key and child is valid. -/
theorem validNode_extTail (l : Nat) (k : Nibbles) (n : Node)
    (hk : k.all (fun x => x < 16) = true) (hn : validNode n = true) :
    validNode (extTail l k n) = true := by
  unfold extTail
  split
  · exact hn
  · rw [validNode.eq_2, Bool.and_eq_true]
    exact ⟨all_lt16_drop l hk, hn⟩

/-- `extTail` keeps at most the extension's remaining keys. -/
theorem nodeKeys_extTail (l : Nat) (k : Nibbles) (n : Node) :
    nodeKeys (extTail l k n) ≤ (k.length - l) + nodeKeys n := by
  unfold extTail
  split
  · omega
  · rw [nodeKeys.eq_2, List.length_drop]

/-- Success of `insertF` is monotone in the fuel. -/
theorem insertF_mono :
    ∀ (f : Nat) (x y r : Node), insertF f x y = some r →
      insertF (f + 1) x y = some r := by
  intro f
  induction f with
  | zero => intro x y r hins; exact Option.noConfusion hins
  | succ f ih =>
    intro x y r hins
    match x, y with
    | .leaf k v, .leaf k2 v2 =>
      simp only [insertF.eq_2] at hins
      rw [insertF.eq_2]
      by_cases he : k = k2
      · rw [if_pos he] at hins ⊢
        exact hins
      · rw [if_neg he] at hins ⊢
        by_cases hk : k = []
        · rw [if_pos hk] at hins ⊢
          exact ih _ _ _ hins
        · rw [if_neg hk] at hins ⊢
          by_cases hk2 : k2 = []
          · rw [if_pos hk2] at hins ⊢
            exact ih _ _ _ hins
          · rw [if_neg hk2] at hins ⊢
            by_cases hl : 0 < prefixLength k k2
            · rw [if_pos hl] at hins
              simp only [if_pos hl]
              obtain ⟨m, hm, hr⟩ := Option.map_eq_some'.mp hins
              rw [ih _ _ _ hm]
              exact congrArg some hr
            · rw [if_neg hl] at hins
              simp only [if_neg hl]
              obtain ⟨b, hb, hr⟩ := Option.bind_eq_some.mp hins
              rw [ih _ _ _ hb]
              exact ih _ _ _ hr
    | .leaf k v, .ext k2 n2 => exact Option.noConfusion hins
    | .leaf k v, .branch ns2 v2 => exact Option.noConfusion hins
    | .ext k n, .leaf k2 v2 =>
      simp only [insertF.eq_4] at hins
      rw [insertF.eq_4]
      by_cases hk : k = []
      · rw [if_pos hk] at hins ⊢
        exact ih _ _ _ hins
      · rw [if_neg hk] at hins ⊢
        by_cases hk2 : k2 = []
        · rw [if_pos hk2] at hins ⊢
          exact ih _ _ _ hins
        · rw [if_neg hk2] at hins ⊢
          by_cases hl : 0 < prefixLength k k2
          · rw [if_pos hl] at hins
            simp only [if_pos hl]
            obtain ⟨m, hm, hr⟩ := Option.map_eq_some'.mp hins
            rw [ih _ _ _ hm]
            exact congrArg some hr
          · rw [if_neg hl] at hins
            simp only [if_neg hl]
            obtain ⟨b, hb, hr⟩ := Option.bind_eq_some.mp hins
            rw [ih _ _ _ hb]
            exact ih _ _ _ hr
    | .ext k n, .ext k2 n2 => exact Option.noConfusion hins
    | .ext k n, .branch ns2 v2 => exact Option.noConfusion hins
    | .branch ns v, .leaf [] v2 =>
      rw [insertF.eq_6] at hins ⊢
      exact hins
    | .branch ns v, .leaf (h :: t) v2 =>
      rw [insertF.eq_7] at hins ⊢
      cases hslot : ns[h]? with
      | none =>
        rw [hslot] at hins
        exact Option.noConfusion hins
      | some o =>
        rw [hslot] at hins
        cases o with
        | none =>
          exact hins
        | some m =>
          have hins2 : Option.map (fun r => Node.branch (ns.set h (some r)) v)
              (insertF f m (Node.leaf t v2)) = some r := hins
          obtain ⟨m2, hm2, hr⟩ := Option.map_eq_some'.mp hins2
          show Option.map (fun r => Node.branch (ns.set h (some r)) v)
              (insertF (f + 1) m (Node.leaf t v2)) = some r
          rw [ih _ _ _ hm2]
          exact congrArg some hr
    | .branch ns v, .ext [] n2 =>
      rw [insertF.eq_8] at hins
      exact Option.noConfusion hins
    | .branch ns v, .ext (h :: t) n2 =>
      rw [insertF.eq_9] at hins ⊢
      exact hins
    | .branch ns v, .branch ns2 v2 => exact Option.noConfusion hins

/-- Success of `insertF` transfers to any larger fuel. -/
theorem insertF_mono_le :
    ∀ {f g : Nat} (x y r : Node), f ≤ g → insertF f x y = some r →
      insertF g x y = some r := by
  intro f g
  induction g with
  | zero =>
    intro x y r hle hins
    have : f = 0 := Nat.le_zero.mp hle
    subst this
    exact hins
  | succ g ihg =>
    intro x y r hle hins
    rcases Nat.lt_or_ge f (g + 1) with hlt | hge
    · exact insertF_mono g x y r (ihg x y r (Nat.lt_succ_iff.mp hlt) hins)
    · have : f = g + 1 := Nat.le_antisymm hle hge
      subst this
      exact hins

/-- Insertion stores at most the keys of its two arguments. -/
theorem insertF_keys :
    ∀ (f : Nat) (x y r : Node), insertF f x y = some r →
      nodeKeys r ≤ nodeKeys x + nodeKeys y := by
  intro f
  induction f with
  | zero => intro x y r hins; exact Option.noConfusion hins
  | succ f ih =>
    intro x y r hins
    match x, y with
    | .leaf k v, .leaf k2 v2 =>
      simp only [insertF.eq_2] at hins
      by_cases he : k = k2
      · rw [if_pos he] at hins
        obtain rfl := Option.some.inj hins
        simp only [nodeKeys]
        omega
      · rw [if_neg he] at hins
        by_cases hk : k = []
        · rw [if_pos hk] at hins
          subst hk
          have h1 := ih _ _ _ hins
          simp only [nodeKeys, slotsKeys_empty16, List.length_nil] at h1 ⊢
          omega
        · rw [if_neg hk] at hins
          by_cases hk2 : k2 = []
          · rw [if_pos hk2] at hins
            subst hk2
            have h1 := ih _ _ _ hins
            simp only [nodeKeys, slotsKeys_empty16, List.length_nil] at h1 ⊢
            omega
          · rw [if_neg hk2] at hins
            by_cases hl : 0 < prefixLength k k2
            · rw [if_pos hl] at hins
              obtain ⟨m, hm, rfl⟩ := Option.map_eq_some'.mp hins
              have h1 := ih _ _ _ hm
              have hlk := prefixLength_le_left k k2
              have hrk := prefixLength_le_right k k2
              simp only [nodeKeys, List.length_drop] at h1 ⊢
              rw [List.length_take]
              omega
            · rw [if_neg hl] at hins
              obtain ⟨b, hb, hr2⟩ := Option.bind_eq_some.mp hins
              have h1 := ih _ _ _ hb
              have h2 := ih _ _ _ hr2
              simp only [nodeKeys, slotsKeys_empty16] at h1 h2 ⊢
              omega
    | .leaf k v, .ext k2 n2 => exact Option.noConfusion hins
    | .leaf k v, .branch ns2 v2 => exact Option.noConfusion hins
    | .ext k n, .leaf k2 v2 =>
      simp only [insertF.eq_4] at hins
      by_cases hk : k = []
      · rw [if_pos hk] at hins
        subst hk
        have h1 := ih _ _ _ hins
        simp only [nodeKeys, List.length_nil] at h1 ⊢
        omega
      · rw [if_neg hk] at hins
        by_cases hk2 : k2 = []
        · rw [if_pos hk2] at hins
          subst hk2
          have h1 := ih _ _ _ hins
          simp only [nodeKeys, slotsKeys_empty16, List.length_nil] at h1 ⊢
          omega
        · rw [if_neg hk2] at hins
          by_cases hl : 0 < prefixLength k k2
          · rw [if_pos hl] at hins
            obtain ⟨m, hm, rfl⟩ := Option.map_eq_some'.mp hins
            have h1 := ih _ _ _ hm
            have he2 := nodeKeys_extTail (prefixLength k k2) k n
            have hlk := prefixLength_le_left k k2
            have hrk := prefixLength_le_right k k2
            simp only [nodeKeys, List.length_drop] at h1 ⊢
            rw [List.length_take]
            omega
          · rw [if_neg hl] at hins
            obtain ⟨b, hb, hr2⟩ := Option.bind_eq_some.mp hins
            have h1 := ih _ _ _ hb
            have h2 := ih _ _ _ hr2
            simp only [nodeKeys, slotsKeys_empty16] at h1 h2 ⊢
            omega
    | .ext k n, .ext k2 n2 => exact Option.noConfusion hins
    | .ext k n, .branch ns2 v2 => exact Option.noConfusion hins
    | .branch ns v, .leaf [] v2 =>
      rw [insertF.eq_6] at hins
      obtain rfl := Option.some.inj hins
      simp only [nodeKeys]
      omega
    | .branch ns v, .leaf (h :: t) v2 =>
      rw [insertF.eq_7] at hins
      cases hslot : ns[h]? with
      | none =>
        rw [hslot] at hins
        exact Option.noConfusion hins
      | some o =>
        rw [hslot] at hins
        cases o with
        | none =>
          obtain rfl := Option.some.inj hins
          have hset := slotsKeys_set ns h none (some (Node.leaf t v2)) hslot
          simp only [optKeys, nodeKeys] at hset
          simp only [nodeKeys, List.length_cons]
          omega
        | some m =>
          have hins2 : Option.map (fun r => Node.branch (ns.set h (some r)) v)
              (insertF f m (Node.leaf t v2)) = some r := hins
          obtain ⟨m2, hm2, rfl⟩ := Option.map_eq_some'.mp hins2
          have h1 := ih _ _ _ hm2
          have hset := slotsKeys_set ns h (some m) (some m2) hslot
          simp only [optKeys, nodeKeys] at hset h1
          simp only [nodeKeys, List.length_cons]
          omega
    | .branch ns v, .ext [] n2 =>
      rw [insertF.eq_8] at hins
      exact Option.noConfusion hins
    | .branch ns v, .ext (h :: t) n2 =>
      rw [insertF.eq_9] at hins
      split at hins
      · obtain rfl := Option.some.inj hins
        have hlt : h < ns.length := by assumption
        have hslot : ns[h]? = some ns[h] := List.getElem?_eq_getElem hlt
        have hset := slotsKeys_set ns h ns[h]
          (some (extTail 1 (h :: t) n2)) hslot
        have he2 := nodeKeys_extTail 1 (h :: t) n2
        simp only [optKeys, nodeKeys, List.length_cons] at hset he2 ⊢
        omega
      · exact Option.noConfusion hins
    | .branch ns v, .branch ns2 v2 => exact Option.noConfusion hins

/-- Insertion preserves structural validity. -/
theorem insertF_valid :
    ∀ (f : Nat) (x y r : Node), validNode x = true → validNode y = true →
      insertF f x y = some r → validNode r = true := by
  intro f
  induction f with
  | zero => intro x y r _ _ hins; exact Option.noConfusion hins
  | succ f ih =>
    intro x y r hvx hvy hins
    match x, y with
    | .leaf k v, .leaf k2 v2 =>
      simp only [insertF.eq_2] at hins
      by_cases he : k = k2
      · rw [if_pos he] at hins
        obtain rfl := Option.some.inj hins
        exact hvy
      · rw [if_neg he] at hins
        by_cases hk : k = []
        · rw [if_pos hk] at hins
          exact ih _ _ _ (validNode_empty16 v) hvy hins
        · rw [if_neg hk] at hins
          by_cases hk2 : k2 = []
          · rw [if_pos hk2] at hins
            exact ih _ _ _ (validNode_empty16 v2) hvx hins
          · rw [if_neg hk2] at hins
            by_cases hl : 0 < prefixLength k k2
            · rw [if_pos hl] at hins
              obtain ⟨m, hm, rfl⟩ := Option.map_eq_some'.mp hins
              simp only [validNode] at hvx hvy
              have hm2 : validNode m = true := by
                refine ih _ _ _ ?_ ?_ hm
                · simp only [validNode]
                  exact all_lt16_drop _ hvx
                · simp only [validNode]
                  exact all_lt16_drop _ hvy
              rw [validNode.eq_2, Bool.and_eq_true]
              exact ⟨all_lt16_take _ hvx, hm2⟩
            · rw [if_neg hl] at hins
              obtain ⟨b, hb, hr2⟩ := Option.bind_eq_some.mp hins
              exact ih _ _ _ (ih _ _ _ (validNode_empty16 none) hvx hb) hvy hr2
    | .leaf k v, .ext k2 n2 => exact Option.noConfusion hins
    | .leaf k v, .branch ns2 v2 => exact Option.noConfusion hins
    | .ext k n, .leaf k2 v2 =>
      simp only [insertF.eq_4] at hins
      by_cases hk : k = []
      · rw [if_pos hk] at hins
        rw [validNode.eq_2, Bool.and_eq_true] at hvx
        exact ih _ _ _ hvx.2 hvy hins
      · rw [if_neg hk] at hins
        by_cases hk2 : k2 = []
        · rw [if_pos hk2] at hins
          exact ih _ _ _ (validNode_empty16 v2) hvx hins
        · rw [if_neg hk2] at hins
          by_cases hl : 0 < prefixLength k k2
          · rw [if_pos hl] at hins
            obtain ⟨m, hm, rfl⟩ := Option.map_eq_some'.mp hins
            rw [validNode.eq_2, Bool.and_eq_true] at hvx
            simp only [validNode] at hvy
            have hm2 : validNode m = true := by
              refine ih _ _ _ ?_ ?_ hm
              · exact validNode_extTail _ k n hvx.1 hvx.2
              · simp only [validNode]
                exact all_lt16_drop _ hvy
            rw [validNode.eq_2, Bool.and_eq_true]
            exact ⟨all_lt16_take _ hvx.1, hm2⟩
          · rw [if_neg hl] at hins
            obtain ⟨b, hb, hr2⟩ := Option.bind_eq_some.mp hins
            exact ih _ _ _ (ih _ _ _ (validNode_empty16 none) hvx hb) hvy hr2
    | .ext k n, .ext k2 n2 => exact Option.noConfusion hins
    | .ext k n, .branch ns2 v2 => exact Option.noConfusion hins
    | .branch ns v, .leaf [] v2 =>
      rw [insertF.eq_6] at hins
      obtain rfl := Option.some.inj hins
      simp only [validNode] at hvx ⊢
      exact hvx
    | .branch ns v, .leaf (h :: t) v2 =>
      rw [insertF.eq_7] at hins
      simp only [validNode, Bool.and_eq_true, decide_eq_true_eq] at hvx
      simp only [validNode, List.all_cons, Bool.and_eq_true] at hvy
      cases hslot : ns[h]? with
      | none =>
        rw [hslot] at hins
        exact Option.noConfusion hins
      | some o =>
        rw [hslot] at hins
        cases o with
        | none =>
          obtain rfl := Option.some.inj hins
          simp only [validNode, Bool.and_eq_true, decide_eq_true_eq,
            List.length_set]
          refine ⟨hvx.1, validSlots_set ns h _ hvx.2 ?_⟩
          simp only [validO, validNode]
          exact hvy.2
        | some m =>
          have hins2 : Option.map (fun r => Node.branch (ns.set h (some r)) v)
              (insertF f m (Node.leaf t v2)) = some r := hins
          obtain ⟨m2, hm2, rfl⟩ := Option.map_eq_some'.mp hins2
          have hvm : validNode m = true := by
            have := validSlots_slot ns h (some m) hvx.2 hslot
            simpa only [validO] using this
          have hvm2 : validNode m2 = true := by
            refine ih _ _ _ hvm ?_ hm2
            simp only [validNode]
            exact hvy.2
          simp only [validNode, Bool.and_eq_true, decide_eq_true_eq,
            List.length_set]
          refine ⟨hvx.1, validSlots_set ns h _ hvx.2 ?_⟩
          simpa only [validO] using hvm2
    | .branch ns v, .ext [] n2 =>
      rw [insertF.eq_8] at hins
      exact Option.noConfusion hins
    | .branch ns v, .ext (h :: t) n2 =>
      rw [insertF.eq_9] at hins
      split at hins
      · obtain rfl := Option.some.inj hins
        simp only [validNode, Bool.and_eq_true, decide_eq_true_eq] at hvx
        rw [validNode.eq_2, Bool.and_eq_true] at hvy
        simp only [validNode, Bool.and_eq_true, decide_eq_true_eq,
          List.length_set]
        refine ⟨hvx.1, validSlots_set ns h _ hvx.2 ?_⟩
        simpa only [validO] using validNode_extTail 1 (h :: t) n2 hvy.1 hvy.2
      · exact Option.noConfusion hins
    | .branch ns v, .branch ns2 v2 => exact Option.noConfusion hins

/-- Totality workhorse: bounded double induction, first on the total key
mass of the two arguments, then on the shallow rank of the receiver. -/
theorem insertF_total_aux :
    ∀ (a b : Nat) (self : Node) (k2 : Nibbles) (v2 : Val),
      validNode self = true → k2.all (fun x => x < 16) = true →
      nodeKeys self + k2.length < a → shallowRank self < b →
      ∃ f r, insertF f self (Node.leaf k2 v2) = some r := by
  intro a
  induction a with
  | zero =>
    intro b self k2 v2 _ _ hM _
    omega
  | succ a iha =>
    intro b
    induction b with
    | zero =>
      intro self k2 v2 _ _ _ hR
      omega
    | succ b ihb =>
      intro self k2 v2 hv hk2 hM hR
      match self with
      | .leaf k v =>
        by_cases he : k = k2
        · subst he
          refine ⟨1, Node.leaf k v2, ?_⟩
          show insertF (0 + 1) _ _ = _
          rw [insertF.eq_2, if_pos rfl]
        · by_cases hk : k = []
          · subst hk
            have hRb : (1 : Nat) < b + 1 := hR
            obtain ⟨f1, r, hr⟩ := ihb (Node.branch empty16 v) k2 v2
              (validNode_empty16 v) hk2
              (by simp only [nodeKeys, slotsKeys_empty16]
                  simp only [nodeKeys, List.length_nil] at hM
                  omega)
              (by simp only [shallowRank]; omega)
            refine ⟨f1 + 1, r, ?_⟩
            rw [insertF.eq_2, if_neg he, if_pos rfl]
            exact hr
          · by_cases hk2e : k2 = []
            · subst hk2e
              simp only [validNode] at hv
              have hRb : (1 : Nat) < b + 1 := hR
              obtain ⟨f1, r, hr⟩ := ihb (Node.branch empty16 v2) k v
                (validNode_empty16 v2) hv
                (by simp only [nodeKeys, slotsKeys_empty16]
                    simp only [nodeKeys, List.length_nil] at hM
                    omega)
                (by simp only [shallowRank]; omega)
              refine ⟨f1 + 1, r, ?_⟩
              rw [insertF.eq_2, if_neg he, if_neg hk, if_pos rfl]
              exact hr
            · simp only [validNode] at hv
              have hlk := prefixLength_le_left k k2
              have hrk := prefixLength_le_right k k2
              have hk2len : 0 < k2.length := by
                cases k2 with
                | nil => exact absurd rfl hk2e
                | cons c cs => simp
              by_cases hl : 0 < prefixLength k k2
              · obtain ⟨f1, m, hm⟩ := iha (shallowRank (Node.leaf
                    (k.drop (prefixLength k k2)) v) + 1)
                  (Node.leaf (k.drop (prefixLength k k2)) v)
                  (k2.drop (prefixLength k k2)) v2
                  (by simp only [validNode]; exact all_lt16_drop _ hv)
                  (all_lt16_drop _ hk2)
                  (by simp only [nodeKeys, List.length_drop] at hM ⊢
                      omega)
                  (by omega)
                refine ⟨f1 + 1, Node.ext (k.take (prefixLength k k2)) m, ?_⟩
                rw [insertF.eq_2, if_neg he, if_neg hk, if_neg hk2e]
                simp only [if_pos hl]
                rw [hm]
                rfl
              · have hklen : 0 < k.length := by
                  cases k with
                  | nil => exact absurd rfl hk
                  | cons c cs => simp
                obtain ⟨f1, b1, hb1⟩ := iha 2 (Node.branch empty16 none) k v
                  (validNode_empty16 none) hv
                  (by simp only [nodeKeys, slotsKeys_empty16] at hM ⊢
                      omega)
                  (by simp only [shallowRank]; omega)
                have hb1br := insert_branch_shape f1 empty16 none _ b1 hb1
                have hb1v : validNode b1 = true :=
                  insertF_valid f1 _ _ b1 (validNode_empty16 none)
                    (by simp only [validNode]; exact hv) hb1
                have hb1k : nodeKeys b1 ≤ k.length := by
                  have := insertF_keys f1 _ _ b1 hb1
                  simp only [nodeKeys, slotsKeys_empty16] at this
                  omega
                have hb1sr : shallowRank b1 = 0 := by
                  cases b1 with
                  | leaf kx vx => exact Bool.noConfusion hb1br
                  | ext kx nx => exact Bool.noConfusion hb1br
                  | branch nsx vx => rfl
                have hRb : (1 : Nat) < b + 1 := hR
                obtain ⟨f2, r, hr⟩ := ihb b1 k2 v2 hb1v hk2
                  (by simp only [nodeKeys] at hM
                      omega)
                  (by omega)
                refine ⟨max f1 f2 + 1, r, ?_⟩
                rw [insertF.eq_2, if_neg he, if_neg hk, if_neg hk2e]
                simp only [if_neg hl]
                rw [insertF_mono_le _ _ _ (Nat.le_max_left f1 f2) hb1]
                exact insertF_mono_le _ _ _ (Nat.le_max_right f1 f2) hr
      | .ext k n =>
        rw [validNode.eq_2, Bool.and_eq_true] at hv
        by_cases hk : k = []
        · subst hk
          have hRe : 3 + shallowRank n < b + 1 := by
            have : shallowRank (Node.ext [] n) = 3 + shallowRank n := by
              rw [shallowRank.eq_3, if_pos rfl]
            omega
          obtain ⟨f1, r, hr⟩ := ihb n k2 v2 hv.2 hk2
            (by simp only [nodeKeys, List.length_nil] at hM
                omega)
            (by omega)
          refine ⟨f1 + 1, r, ?_⟩
          rw [insertF.eq_4, if_pos rfl]
          exact hr
        · obtain ⟨hh, ht, rfl⟩ := List.exists_cons_of_ne_nil hk
          have hh16 : hh < 16 := by
            simp only [List.all_cons, Bool.and_eq_true, decide_eq_true_eq] at hv
            exact hv.1.1
          have hlt : hh < empty16.length := by
            simp only [empty16, List.length_replicate]
            omega
          by_cases hk2e : k2 = []
          · subst hk2e
            refine ⟨2, Node.branch
              (empty16.set hh (some (extTail 1 (hh :: ht) n))) v2, ?_⟩
            show insertF (1 + 1) _ _ = _
            rw [insertF.eq_4, if_neg (List.cons_ne_nil hh ht), if_pos rfl]
            show insertF (0 + 1) _ _ = _
            rw [insertF.eq_9, if_pos hlt]
          · have hlk := prefixLength_le_left (hh :: ht) k2
            have hrk := prefixLength_le_right (hh :: ht) k2
            have hk2len : 0 < k2.length := by
              cases k2 with
              | nil => exact absurd rfl hk2e
              | cons c cs => simp
            by_cases hl : 0 < prefixLength (hh :: ht) k2
            · have hkv : (hh :: ht).all (fun x => x < 16) = true := hv.1
              obtain ⟨f1, m, hm⟩ := iha
                (shallowRank (extTail (prefixLength (hh :: ht) k2)
                  (hh :: ht) n) + 1)
                (extTail (prefixLength (hh :: ht) k2) (hh :: ht) n)
                (k2.drop (prefixLength (hh :: ht) k2)) v2
                (validNode_extTail _ _ n hkv hv.2)
                (all_lt16_drop _ hk2)
                (by have hkt := nodeKeys_extTail
                      (prefixLength (hh :: ht) k2) (hh :: ht) n
                    simp only [nodeKeys, List.length_drop,
                      List.length_cons] at hM hkt ⊢
                    omega)
                (by omega)
              refine ⟨f1 + 1, Node.ext ((hh :: ht).take
                (prefixLength (hh :: ht) k2)) m, ?_⟩
              rw [insertF.eq_4, if_neg (List.cons_ne_nil hh ht),
                if_neg hk2e]
              simp only [if_pos hl]
              rw [hm]
              rfl
            · have hstep : insertF 1 (Node.branch empty16 none)
                  (Node.ext (hh :: ht) n) =
                  some (Node.branch
                    (empty16.set hh (some (extTail 1 (hh :: ht) n))) none) := by
                show insertF (0 + 1) _ _ = _
                rw [insertF.eq_9, if_pos hlt]
              have hslot0 : empty16[hh]? = some none := by
                rw [empty16_getElem, if_pos hh16]
              have hb1k : nodeKeys (Node.branch
                  (empty16.set hh (some (extTail 1 (hh :: ht) n))) none) ≤
                  ht.length + nodeKeys n := by
                have hset := slotsKeys_set empty16 hh none
                  (some (extTail 1 (hh :: ht) n)) hslot0
                have hkt := nodeKeys_extTail 1 (hh :: ht) n
                simp only [optKeys, nodeKeys, slotsKeys_empty16,
                  List.length_cons] at hset hkt ⊢
                omega
              have hb1v : validNode (Node.branch
                  (empty16.set hh (some (extTail 1 (hh :: ht) n))) none) =
                  true := by
                simp only [validNode, Bool.and_eq_true, decide_eq_true_eq,
                  List.length_set]
                refine ⟨by simp [empty16], ?_⟩
                refine validSlots_set empty16 hh _ rfl ?_
                simpa only [validO] using
                  validNode_extTail 1 (hh :: ht) n hv.1 hv.2
              obtain ⟨f2, r, hr⟩ := iha 1 (Node.branch
                  (empty16.set hh (some (extTail 1 (hh :: ht) n))) none)
                k2 v2 hb1v hk2
                (by simp only [nodeKeys, List.length_cons] at hM
                    omega)
                (by simp only [shallowRank]; omega)
              refine ⟨max 1 f2 + 1, r, ?_⟩
              rw [insertF.eq_4, if_neg (List.cons_ne_nil hh ht),
                if_neg hk2e]
              simp only [if_neg hl]
              rw [insertF_mono_le _ _ _ (Nat.le_max_left 1 f2) hstep]
              exact insertF_mono_le _ _ _ (Nat.le_max_right 1 f2) hr
      | .branch ns v =>
        simp only [validNode, Bool.and_eq_true, decide_eq_true_eq] at hv
        match k2, hk2 with
        | [], _ =>
          refine ⟨1, Node.branch ns v2, ?_⟩
          show insertF (0 + 1) _ _ = _
          rw [insertF.eq_6]
        | h :: t, hk2 =>
          have hh16 : h < 16 := by
            simp only [List.all_cons, Bool.and_eq_true,
              decide_eq_true_eq] at hk2
            exact hk2.1
          have ht16 : t.all (fun x => x < 16) = true := by
            simp only [List.all_cons, Bool.and_eq_true] at hk2
            exact hk2.2
          cases hslot : ns[h]? with
          | none =>
            have := List.getElem?_eq_none_iff.mp hslot
            omega
          | some o =>
            cases o with
            | none =>
              refine ⟨1, Node.branch (ns.set h (some (Node.leaf t v2))) v, ?_⟩
              show insertF (0 + 1) _ _ = _
              rw [insertF.eq_7, hslot]
            | some m =>
              have hvm : validNode m = true := by
                have := validSlots_slot ns h (some m) hv.2 hslot
                simpa only [validO] using this
              have hmk := slotsKeys_slot ns h m hslot
              obtain ⟨f1, m2, hm2⟩ := iha (shallowRank m + 1) m t v2
                hvm ht16
                (by simp only [nodeKeys, List.length_cons] at hM
                    omega)
                (by omega)
              refine ⟨f1 + 1, Node.branch (ns.set h (some m2)) v, ?_⟩
              rw [insertF.eq_7, hslot]
              show Option.map (fun r => Node.branch (ns.set h (some r)) v)
                (insertF f1 m (Node.leaf t v2)) = _
              rw [hm2]
              rfl

/-- With enough fuel, inserting a leaf with in-range key nibbles into a
valid tree always succeeds: the fuel in `insertF` is an artifact of the
embedding, not a restriction, matching the terminating Python recursion. -/
theorem insertF_total (self : Node) (k2 : Nibbles) (v2 : Val)
    (hv : validNode self = true) (hk2 : k2.all (fun x => x < 16) = true) :
    ∃ f r, insertF f self (Node.leaf k2 v2) = some r :=
  insertF_total_aux (nodeKeys self + k2.length + 1) (shallowRank self + 1)
    self k2 v2 hv hk2 (by omega) (by omega)

/-- Closed instance of `insertF_total` at a concrete tree and key. -/
theorem insertF_total_witness :
    ∃ f r, insertF f (Node.leaf [0, 1] (some [7])) (Node.leaf [0, 2] none) =
      some r :=
  insertF_total (Node.leaf [0, 1] (some [7])) [0, 2] none
    (by decide) (by decide)

/-- Byte-string nibbles are always in range. -/
theorem bytesToNibbles_all_lt16 (bs : Bytes)
    (hb : bs.all (fun x => x < 256) = true) :
    (bytesToNibbles bs).all (fun x => x < 16) = true := by
  rw [List.all_eq_true] at hb ⊢
  intro x hx
  simp only [bytesToNibbles, List.mem_flatMap] at hx
  obtain ⟨y, hy, hxy⟩ := hx
  have hy256 : y < 256 := by simpa using hb y hy
  simp only [List.mem_cons, List.not_mem_nil, or_false] at hxy
  rcases hxy with h1 | h1 <;>
    (subst h1; simp only [decide_eq_true_eq]; omega)

/-- `trieSet` with byte values below 256 always succeeds on a valid root. -/
theorem trieSet_total (t : Option Node) (key value : Bytes)
    (hv : validO t = true) (hkey : key.all (fun x => x < 256) = true) :
    ∃ f r, trieSet f t key value = some r := by
  cases t with
  | none => exact ⟨0, Node.leaf (bytesToNibbles key) (some value), rfl⟩
  | some n =>
    obtain ⟨f, r, hr⟩ := insertF_total n (bytesToNibbles key) (some value)
      (by simpa only [validO] using hv) (bytesToNibbles_all_lt16 key hkey)
    exact ⟨f, r, hr⟩

/-- `trieSet` preserves validity of the root. -/
theorem trieSet_valid (f : Nat) (t : Option Node) (key value : Bytes)
    (hv : validO t = true) (hkey : key.all (fun x => x < 256) = true) :
    ∀ r, trieSet f t key value = some r → validNode r = true := by
  intro r hr
  cases t with
  | none =>
    obtain rfl := Option.some.inj hr
    simp only [validNode]
    exact bytesToNibbles_all_lt16 key hkey
  | some n =>
    exact insertF_valid f n _ r (by simpa only [validO] using hv)
      (by simp only [validNode]
          exact bytesToNibbles_all_lt16 key hkey) hr

/-- `trieSet` success is monotone in the fuel. -/
theorem trieSet_mono_le {f g : Nat} (t : Option Node) (key value : Bytes)
    (hle : f ≤ g) :
    ∀ r, trieSet f t key value = some r → trieSet g t key value = some r := by
  intro r hr
  cases t with
  | none => exact hr
  | some n => exact insertF_mono_le _ _ _ hle hr

/-- `setAll` success is monotone in the fuel. -/
theorem setAll_mono_le :
    ∀ (pairs : List (Bytes × Bytes)) (t : Option Node) {f g : Nat}
      (u : Option Node), f ≤ g → setAll f t pairs = some u →
      setAll g t pairs = some u := by
  intro pairs
  induction pairs with
  | nil =>
    intro t f g u _ hu
    exact hu
  | cons p rest ih =>
    intro t f g u hle hu
    rw [setAll.eq_2] at hu ⊢
    cases hstep : trieSet f t p.1 p.2 with
    | none =>
      rw [hstep] at hu
      exact Option.noConfusion hu
    | some n =>
      rw [hstep] at hu
      rw [trieSet_mono_le t p.1 p.2 hle n hstep]
      exact ih (some n) u hle hu

/-- A whole sequence of sets over byte keys below 256 succeeds with enough
fuel, starting from any valid root. -/
theorem setAll_total :
    ∀ (pairs : List (Bytes × Bytes)) (t : Option Node),
      validO t = true →
      pairs.all (fun p => p.1.all (fun x => x < 256)) = true →
      ∃ f u, setAll f t pairs = some u := by
  intro pairs
  induction pairs with
  | nil =>
    intro t _ _
    exact ⟨0, t, rfl⟩
  | cons p rest ih =>
    intro t hv hall
    simp only [List.all_cons, Bool.and_eq_true] at hall
    obtain ⟨f1, r1, h1⟩ := trieSet_total t p.1 p.2 hv hall.1
    have hr1v : validO (some r1) = true := by
      simpa only [validO] using trieSet_valid f1 t p.1 p.2 hv hall.1 r1 h1
    obtain ⟨f2, u, h2⟩ := ih (some r1) hr1v hall.2
    refine ⟨max f1 f2, u, ?_⟩
    rw [setAll.eq_2, trieSet_mono_le t p.1 p.2 (Nat.le_max_left f1 f2) r1 h1]
    exact setAll_mono_le rest (some r1) u (Nat.le_max_right f1 f2) h2

/-- Closed instance of `setAll_total` from the empty trie. -/
theorem setAll_total_witness :
    ∃ f u, setAll f none [([0], [1]), ([1], [2])] = some u :=
  setAll_total [([0], [1]), ([1], [2])] none (by decide) (by decide)
